import Mathlib

/-!
Verification of the multi-technique anomaly-scoring engine of
`src/validation/ai_techniques.py` (FuzzyLogicDetector, ExpertSystemDetector,
TimeSeriesForecastingDetector, GeneticAlgorithmDetector, EnsembleAIDetector).

Modelling conventions, shared by every definition below:

* Python floats are modelled by exact rationals `ℚ`; a possibly-NaN float is
  `F := Option ℚ`, with `none` playing the role of `np.nan`.  All numpy
  elementwise arithmetic on possibly-NaN data propagates NaN, which is what the
  `Option`-lifted operations below do.
* A numeric matrix is represented by its list of columns (`List Col`), because
  every loop in the source iterates column-major (`X[:, col_idx]`); the row
  count is passed explicitly where the source reads `X.shape[0]`.
* `np.std`/`np.nanstd` compute a real square root.  The square root (and the
  exponential used by the gaussian membership kernel) are not rational, so the
  embedding is parameterised by an `Oracle` carrying the two functions; the
  theorems assume only the properties of the true `Real.sqrt`/`Real.exp` that
  the source relies on (`Oracle.Valid`), and concrete witnesses instantiate the
  oracle with functions that agree with the true square root on every value the
  witness data produces (the data is chosen so all variances are 0 or 1).
* `std == 0` tests in the source are modelled as `variance == 0`, which is
  equivalent for the true square root.
* Python dicts keyed by the column index `0..ncols-1` (scaler params,
  forecasts, residual sigmas) are modelled positionally as lists; re-fitting
  with fewer columns keeps the stale higher-indexed entries, which the list
  model reproduces with `new ++ old.drop ncols`.
-/

/-- A Python float that may be NaN: `none` models `np.nan`. -/
abbrev F := Option ℚ

/-- A matrix column. -/
abbrev Col := List F

/-- The literal `1e-8` guard constant used throughout the source. -/
def eps : ℚ := 1 / 100000000

/-- NaN-propagating addition (numpy elementwise `+`). -/
def fAdd (a b : F) : F :=
  match a, b with
  | some x, some y => some (x + y)
  | _, _ => none

/-- NaN-propagating subtraction. -/
def fSub (a b : F) : F :=
  match a, b with
  | some x, some y => some (x - y)
  | _, _ => none

/-- NaN-propagating division (division by an exact rational 0 never occurs on
the paths the theorems traverse; numpy would produce inf/nan there). -/
def fDiv (a b : F) : F :=
  match a, b with
  | some x, some y => some (x / y)
  | _, _ => none

/-- NaN-propagating absolute value (`np.abs`). -/
def absF (a : F) : F := a.map (fun x => |x|)

/-- `np.minimum x c` for a scalar `c`: NaN stays NaN. -/
def fMinC (a : F) (c : ℚ) : F := a.map (fun x => min x c)

/-- Mean of a list of rationals (`np.mean` on clean data). -/
def meanQ (l : List ℚ) : ℚ := l.sum / l.length

/-- Population variance (`np.std` squared, `ddof = 0`). -/
def varQ (l : List ℚ) : ℚ := (l.map (fun x => (x - meanQ l) ^ 2)).sum / l.length

/-- The non-NaN values of a column (what `np.nanmean`/`np.nanstd` average). -/
def nanVals : Col → List ℚ
  | [] => []
  | none :: rest => nanVals rest
  | some x :: rest => x :: nanVals rest

/-- `np.mean` over possibly-NaN data: NaN if any entry is NaN or the list is
empty. -/
def meanF (col : Col) : F :=
  if col.isEmpty ∨ col.any (fun v => v.isNone) then none
  else some (meanQ (nanVals col))

/-- Irrational-function oracle: `sq` stands for the square root used by
`np.std`/`np.nanstd`, `ex` for `np.exp`. -/
structure Oracle where
  sq : ℚ → ℚ
  ex : ℚ → ℚ

/-- The properties of the true square root and exponential that the source
relies on: the root of a nonnegative number is nonnegative, is zero exactly on
zero, and the exponential of a nonpositive argument lies in `(0, 1]`. -/
def Oracle.Valid (O : Oracle) : Prop :=
  (∀ v : ℚ, 0 ≤ v → 0 ≤ O.sq v) ∧
  (∀ v : ℚ, 0 ≤ v → (O.sq v = 0 ↔ v = 0)) ∧
  (∀ z : ℚ, z ≤ 0 → 0 < O.ex z ∧ O.ex z ≤ 1)

/-- Concrete oracle used by witnesses and counterexamples: it agrees with the
true square root on `0` and `1`, the only variances produced by the concrete
data below. -/
def oracleC : Oracle :=
  { sq := fun v => if v = 0 then 0 else 1, ex := fun _ => 1 }

/-- `np.std` over possibly-NaN data (not the nan-filtered version): NaN if any
entry is NaN or the list is empty, else the oracle root of the variance. -/
def stdPlainF (O : Oracle) (col : Col) : F :=
  if col.isEmpty ∨ col.any (fun v => v.isNone) then none
  else some (O.sq (varQ (nanVals col)))

/-! ## FuzzyLogicDetector -/

/-- A membership-function definition (`fuzzy_def`): triangular `(a, b, c)`
breakpoints or gaussian `(mean, std)`. -/
inductive MF where
  | tri (a b c : ℚ)
  | gauss (m s : ℚ)
deriving DecidableEq

/-- `FuzzyLogicDetector._triangular_membership`: 0 at and beyond the edges,
ε-guarded linear ramps inside. -/
def triangularMembership (x a b c : ℚ) : ℚ :=
  if x ≤ a ∨ c ≤ x then 0
  else if a < x ∧ x ≤ b then (x - a) / (b - a + eps)
  else (c - x) / (c - b + eps)

/-- `FuzzyLogicDetector._gaussian_membership`. -/
def gaussianMembership (O : Oracle) (x m s : ℚ) : ℚ :=
  O.ex (-((x - m) ^ 2) / (2 * s ^ 2 + eps))

/-- Membership of `x` in one fuzzy set. -/
def memMF (O : Oracle) (mf : MF) (x : ℚ) : ℚ :=
  match mf with
  | .tri a b c => triangularMembership x a b c
  | .gauss m s => gaussianMembership O x m s

/-- `memberships.get('normal', 0)`: the membership of `x` in the set named
`"normal"`, or 0 when no such set is defined.  `predict` consults only this
entry of the memberships dict; memberships of the other sets are computed and
discarded by the source, so they are not modelled. -/
def memNormal (O : Oracle) (sets : List (String × MF)) (x : ℚ) : ℚ :=
  match sets.find? (fun p => p.1 == "normal") with
  | some p => memMF O p.2 x
  | none => 0

/-- `FuzzyLogicDetector._normalize`: nan-aware mean/std standardisation scaled
by 3; an all-equal column short-circuits to `np.zeros_like` (which also zeroes
NaN positions), and an all-NaN column stays all-NaN (nanmean/nanstd are NaN).
The source tests `std == 0`; for the true square root this is `variance == 0`,
which is how the branch is written here. -/
def fuzzyNormalize (O : Oracle) (col : Col) : Col :=
  let vs := nanVals col
  if vs.isEmpty then col
  else if varQ vs = 0 then col.map (fun _ => some 0)
  else col.map (fun v => v.map (fun x => (x - meanQ vs) / (O.sq (varQ vs) + eps) * 3))

/-- Fitted state of `FuzzyLogicDetector`: the fuzzy sets fixed at construction
and the per-column `{'mean', 'std'}` scaler params written by `fit` (NaN when a
column has no non-NaN value). -/
structure FuzzyState where
  fuzzySets : List (String × MF)
  scalerParams : List (F × F)

/-- The default fuzzy sets of `FuzzyLogicDetector.__init__`.  The source dict
also contains `'low'` and `'high'` triangular sets with infinite breakpoints;
`predict` reads only the entry named `'normal'` from the memberships dict, so
those two sets can never influence any output and are omitted here, where
infinite parameters are not representable. -/
def defaultFuzzySets : List (String × MF) := [("normal", MF.tri (-1) 0 1)]

/-- `FuzzyLogicDetector.__init__`: `fuzzy_sets or {...}` — `None` and the empty
dict are both falsy in Python, so both select the defaults; `scaler_params`
starts empty. -/
def mkFuzzy (sets : Option (List (String × MF))) : FuzzyState :=
  match sets with
  | some s => if s.isEmpty then ⟨defaultFuzzySets, []⟩ else ⟨s, []⟩
  | none => ⟨defaultFuzzySets, []⟩

/-- `FuzzyLogicDetector.fit`: store per-column nan-filtered mean/std
(`np.mean`/`np.std` of the empty list are NaN).  Dict keys `0..ncols-1` are
overwritten; stale higher keys from an earlier fit persist. -/
def fuzzyFit (O : Oracle) (st : FuzzyState) (X : List Col) : FuzzyState :=
  { st with
    scalerParams :=
      X.map (fun col =>
        let vs := nanVals col
        (if vs.isEmpty then none else some (meanQ vs),
         if vs.isEmpty then none else some (O.sq (varQ vs)))) ++
      st.scalerParams.drop X.length }

/-- Per-row contributions of one column inside `FuzzyLogicDetector.predict`:
a NaN normalised value contributes `0.5` (the source adds `0.5`, not
`0.5 / ncols`), a numeric one contributes `(1 - normal_membership) / ncols`. -/
def fuzzyColScores (O : Oracle) (sets : List (String × MF)) (ncols : ℕ) (col : Col) : List ℚ :=
  (fuzzyNormalize O col).map (fun v =>
    match v with
    | none => 1 / 2
    | some x => (1 - memNormal O sets x) / ncols)

/-- `FuzzyLogicDetector.predict`: start from `np.zeros(nrows)` and accumulate
each column's contributions.  Note that the fitted `scaler_params` are never
read: normalisation is recomputed from the predict-time input. -/
def fuzzyPredict (O : Oracle) (st : FuzzyState) (nrows : ℕ) (X : List Col) : List ℚ :=
  X.foldl (fun acc col => List.zipWith (· + ·) acc (fuzzyColScores O st.fuzzySets X.length col))
    (List.replicate nrows 0)

/-! ## ExpertSystemDetector

Rows of the pandas frame are an abstract type `ρ`, the fitted per-column
summary statistics (`context_vars`) an abstract type `κ` (initially the empty
dict, modelled `none`).  A predicate call `rule['condition'](row, rule_context)`
either returns a boolean or raises; the three outcomes are modelled as an
explicit `RuleEval` result.  The frame is assumed to carry the default
`RangeIndex`, so `scores[idx]` assigns positionally. -/

/-- Outcome of evaluating one expert rule's predicate on one row: returned
`True`, returned a falsy value, or raised an exception. -/
inductive RuleEval where
  | matched
  | notMatched
  | errored

/-- One registered expert rule (`add_rule`). -/
structure Rule (ρ κ : Type) where
  name : String
  cond : ρ → Option κ → RuleEval
  confidence : ℚ

/-- State of `ExpertSystemDetector`: registered rules plus the fitted context
(`none` before `fit`). -/
structure ExpertState (ρ κ : Type) where
  rules : List (Rule ρ κ)
  ctx : Option κ

/-- Per-row score in `ExpertSystemDetector.predict`: collect the confidence of
every matched rule and `0.5` for every rule whose predicate raised; the row
score is the mean of the collected values, or `0.0` when nothing was
collected. -/
def expertRowScore {ρ κ : Type} (rules : List (Rule ρ κ)) (ctx : Option κ) (row : ρ) : ℚ :=
  let rs := rules.foldr
    (fun rule acc =>
      match rule.cond row ctx with
      | .matched => rule.confidence :: acc
      | .notMatched => acc
      | .errored => (1 / 2) :: acc) []
  if rs.isEmpty then 0 else meanQ rs

/-- `ExpertSystemDetector.predict` over the frame's rows. -/
def expertPredict {ρ κ : Type} (st : ExpertState ρ κ) (rows : List ρ) : List ℚ :=
  rows.map (expertRowScore st.rules st.ctx)

/-! ## TimeSeriesForecastingDetector -/

/-- Fitted state of `TimeSeriesForecastingDetector`: smoothing factor `alpha`,
the unused `lag`, and the per-column forecast curves and residual sigmas
written by `fit` (dicts keyed by column index, modelled positionally). -/
structure TSState where
  alpha : ℚ
  lag : ℕ
  forecasts : List Col
  sigmas : List F

/-- `TimeSeriesForecastingDetector.__init__` with default arguments. -/
def mkTS : TSState := ⟨3 / 10, 5, [], []⟩

/-- The sequential forward fill performed by `fit`: a NaN entry whose
predecessor (after filling) is non-NaN is replaced by that predecessor, so only
a leading run of NaNs survives. -/
def ffillFrom (prev : F) : List F → List F
  | [] => []
  | x :: rest =>
    let y := match x, prev with
      | none, some p => some p
      | v, _ => v
    y :: ffillFrom y rest

/-- Forward fill of a column (`fit`'s in-place NaN handling). -/
def ffill : Col → Col
  | [] => []
  | x :: rest => x :: ffillFrom x rest

/-- The recursive part of `_exponential_smoothing`:
`forecast[t] = α·series[t] + (1-α)·forecast[t-1]`, with a NaN observation
carrying the previous forecast forward (and a NaN previous forecast
poisoning every later value). -/
def smoothFrom (α : ℚ) (prev : F) : List F → List F
  | [] => []
  | x :: rest =>
    let f := match x, prev with
      | none, _ => prev
      | some q, some p => some (α * q + (1 - α) * p)
      | some _, none => none
    f :: smoothFrom α f rest

/-- `TimeSeriesForecastingDetector._exponential_smoothing`: for fewer than two
observations return the series itself with `np.std(series) + 1e-8`; otherwise
smooth recursively from `forecast[0] = series[0]` and take sigma as the
population std of the non-NaN residuals, or `1.0` when every residual is NaN. -/
def expSmooth (O : Oracle) (α : ℚ) (s : List F) : Col × F :=
  match s with
  | [] => ([], fAdd (stdPlainF O []) (some eps))
  | [x] => ([x], fAdd (stdPlainF O [x]) (some eps))
  | x :: rest =>
    let forecast := x :: smoothFrom α x rest
    let residuals := nanVals (List.zipWith fSub (x :: rest) forecast)
    let sigma : F := if residuals.isEmpty then some 1 else some (O.sq (varQ residuals))
    (forecast, sigma)

/-- `TimeSeriesForecastingDetector.fit`: per column, forward-fill then smooth;
store forecast and sigma under the column's index (stale higher-indexed entries
from an earlier fit persist). -/
def tsFit (O : Oracle) (st : TSState) (X : List Col) : TSState :=
  let fs := X.map (fun col => expSmooth O st.alpha (ffill col))
  { st with
    forecasts := fs.map Prod.fst ++ st.forecasts.drop X.length
    sigmas := fs.map Prod.snd ++ st.sigmas.drop X.length }

/-- One column's per-row contributions in `TimeSeriesForecastingDetector
.predict`: `min(|x - forecast| / (sigma + 1e-8) / 5, 1) / ncols`. -/
def tsColScores (ncols : ℕ) (col forecast : Col) (sigma : F) : List F :=
  List.zipWith
    (fun x f => fDiv (fMinC (fDiv (fDiv (absF (fSub x f)) (fAdd sigma (some eps))) (some 5)) 1) (some ncols))
    col forecast

/-- `TimeSeriesForecastingDetector.predict`: accumulate each column's
contribution onto `np.zeros(nrows)`, defaulting a missing forecast to the
predict-time column itself and a missing sigma to `1.0`. -/
def tsPredict (st : TSState) (nrows : ℕ) (X : List Col) : List F :=
  (X.enum).foldl
    (fun acc cj =>
      let j := cj.1
      let col := cj.2
      List.zipWith fAdd acc
        (tsColScores X.length col (st.forecasts.getD j col) (st.sigmas.getD j (some 1))))
    (List.replicate nrows (some 0))

/-! ## GeneticAlgorithmDetector

The unseeded numpy random draws are modelled as explicit inputs: each draw is a
parameter of the operation that consumes it, and the theorems constrain the
draws only by the support of the distribution they come from (`np.random
.dirichlet(np.ones n)` lies in the `n`-simplex with, almost surely, strictly
positive coordinates; `np.random.random()` lies in `[0, 1)`, almost surely in
`(0, 1)`; `np.random.uniform(0.3, 0.7)` lies in `[0.3, 0.7)`).

`dict.copy()` in the source is shallow: `best_individual` (line 355), the
survivors (lines 362/364) and the two odd-tail children (line 373) are new
dicts that SHARE the copied individual's weights ndarray.  `_mutate` writes
the fresh weight into that shared array in place (line 324) and only then
rebinds its own dict's entry to the renormalised copy (line 325), so every
other holder of the same array — including a just-tracked `best_individual` —
keeps the overwritten, un-renormalised vector.  The value-semantics
definitions below (`mutate`, `gaGen`, `gaFit`) drop this aliasing and are used
only for statements insensitive to it (predict bounds; best-fitness tracking,
whose concrete runs trigger no weight mutation); the reference-semantics model
(`WStore`, `mutateR`, `gaGenR`, `gaFitR`) keeps the shared heap and exhibits
the corruption of the tracked best individual. -/

/-- One chromosome: feature weights and decision threshold. -/
structure Ind where
  weights : List ℚ
  threshold : ℚ
deriving DecidableEq

/-- Placeholder chromosome returned by out-of-range list accesses that cannot
happen on the paths the theorems traverse. -/
def dummyInd : Ind := ⟨[], 0⟩

/-- Mutable state of `GeneticAlgorithmDetector`: note that `__init__` is the
only place where `best_individual`/`best_fitness` are reset; `fit` only ever
improves them. -/
structure GAState where
  popSize : ℕ
  generations : ℕ
  best : Option Ind
  bestFit : Option ℚ
deriving DecidableEq

/-- `GeneticAlgorithmDetector.__init__`: `best_individual = None`,
`best_fitness = -np.inf` (modelled as `none`). -/
def mkGA (popSize generations : ℕ) : GAState := ⟨popSize, generations, none, none⟩

/-- `fitnesses[best_idx] > self.best_fitness` where `none` is `-np.inf`. -/
def gtBest (f : ℚ) : Option ℚ → Bool
  | none => true
  | some b => decide (b < f)

/-- `GeneticAlgorithmDetector._create_individual`: the chromosome is exactly
the pair of random draws (a dirichlet weight vector and a uniform threshold). -/
def createInd (d : List ℚ × ℚ) : Ind := ⟨d.1, d.2⟩

/-- `w / np.sum(w)` renormalisation used by crossover and mutation. -/
def renorm (w : List ℚ) : List ℚ := w.map (fun x => x / w.sum)

/-- `np.clip x lo hi`. -/
def clip (x lo hi : ℚ) : ℚ := min (max x lo) hi

/-- `GeneticAlgorithmDetector._crossover`: per-component uniform crossover
(`flip i = true` inherits from the first parent) followed by renormalisation;
the child threshold is the mean of the parents' thresholds. -/
def crossover (flip : ℕ → Bool) (p1 p2 : Ind) : Ind :=
  let w := (List.range p1.weights.length).map
    (fun i => if flip i then p1.weights.getD i 0 else p2.weights.getD i 0)
  ⟨renorm w, (p1.threshold + p2.threshold) / 2⟩

/-- The five random draws consumed by one `_mutate` call, in evaluation order:
the weight-mutation coin `r1`, the mutated index, the fresh weight, the
threshold-mutation coin `r2`, and the gaussian noise. -/
structure MutRand where
  r1 : ℚ
  idx : ℕ
  w : ℚ
  r2 : ℚ
  noise : ℚ

/-- `GeneticAlgorithmDetector._mutate` with the default `mutation_rate = 0.1`:
with probability `r1 < 0.1` replace one weight by a fresh draw and renormalise;
with probability `r2 < 0.1` perturb the threshold and clip to `[0.1, 0.9]`. -/
def mutate (m : MutRand) (ind : Ind) : Ind :=
  let w := if m.r1 < 1 / 10 then renorm (ind.weights.set m.idx m.w) else ind.weights
  let t := if m.r2 < 1 / 10 then clip (ind.threshold + m.noise) (1 / 10) (9 / 10) else ind.threshold
  ⟨w, t⟩

/-- Column-wise standardisation `(X - np.mean(X, 0)) / (np.std(X, 0) + 1e-8)`
shared by `_fitness` and `predict` (NaN anywhere in a column poisons the whole
column, since `np.mean`/`np.std` are not the nan-filtered variants). -/
def gaNormalize (O : Oracle) (X : List Col) : List Col :=
  X.map (fun col =>
    let m := meanF col
    let s := stdPlainF O col
    col.map (fun v => fDiv (fSub v m) (fAdd s (some eps))))

/-- `np.dot(X_normalized, weights)`: one score per row, accumulated column by
column. -/
def gaScores (w : List ℚ) (Z : List Col) (nrows : ℕ) : List F :=
  (Z.zip w).foldl
    (fun acc cw => List.zipWith fAdd acc (cw.1.map (fun v => v.map (fun x => x * cw.2))))
    (List.replicate nrows (some 0))

/-- `|score| > threshold` on a possibly-NaN score (any comparison with NaN is
false). -/
def outlierF (t : ℚ) : F → Bool
  | none => false
  | some q => decide (t < |q|)

/-- `score > threshold` on a possibly-NaN score. -/
def predPosF (t : ℚ) : F → Bool
  | none => false
  | some q => decide (t < q)

/-- `GeneticAlgorithmDetector._fitness`, unsupervised branch: fitness is
`-|outlier_ratio - 0.05|`. -/
def fitnessU (O : Oracle) (X : List Col) (nrows : ℕ) (ind : Ind) : ℚ :=
  let scores := gaScores ind.weights (gaNormalize O X) nrows
  let ratio : ℚ := ((scores.filter (outlierF ind.threshold)).length : ℚ) / (scores.length : ℚ)
  let negDev : ℚ := -(|ratio - 1 / 20|)
  negDev

/-- `GeneticAlgorithmDetector._fitness`, supervised branch: ε-guarded F1 score
of `score > threshold` against the labels. -/
def fitnessS (O : Oracle) (X : List Col) (nrows : ℕ) (labels : List Bool) (ind : Ind) : ℚ :=
  let scores := gaScores ind.weights (gaNormalize O X) nrows
  let preds := scores.map (predPosF ind.threshold)
  let tp : ℚ := ((List.zipWith (fun p l => p && l) preds labels).filter id).length
  let fp : ℚ := ((List.zipWith (fun p l => p && !l) preds labels).filter id).length
  let fn : ℚ := ((List.zipWith (fun p l => !p && l) preds labels).filter id).length
  let prec := tp / (tp + fp + eps)
  let rcl := tp / (tp + fn + eps)
  2 * (prec * rcl) / (prec + rcl + eps)

/-- `GeneticAlgorithmDetector._fitness`. -/
def fitness (O : Oracle) (X : List Col) (nrows : ℕ) (labels : Option (List Bool)) (ind : Ind) : ℚ :=
  match labels with
  | none => fitnessU O X nrows ind
  | some l => fitnessS O X nrows l ind

/-- `np.argmax`: index of the first occurrence of the maximum (0 on the empty
list, which `np.argmax` rejects; the theorems never reach that case). -/
def argmaxIdx (l : List ℚ) : ℕ :=
  ((l.enum).foldl (fun bi iv => if bi.2 < iv.2 then iv else bi) (0, l.getD 0 0)).1

/-- Binary tournament selection for one slot: of the two drawn indices keep the
fitter (ties keep the second, as the source's `if fitnesses[idx1] >
fitnesses[idx2]` falls through). -/
def tournament (pop : List Ind) (fits : List ℚ) (pr : ℕ × ℕ) : Ind :=
  if fits.getD pr.2 0 < fits.getD pr.1 0 then pop.getD pr.1 dummyInd else pop.getD pr.2 dummyInd

/-- The pairing loop of `fit`: survivors are bred two at a time (each pair
yields `crossover(a, b)` then `crossover(b, a)`); an odd trailing survivor
yields two copies of itself.  `flip k` is the coin stream of the `k`-th child
produced. -/
def breed (flip : ℕ → ℕ → Bool) (k : ℕ) : List Ind → List Ind
  | p1 :: p2 :: rest =>
    crossover (flip k) p1 p2 :: crossover (flip (k + 1)) p2 p1 :: breed flip (k + 2) rest
  | [p] => [p, p]
  | [] => []

/-- The per-generation random draws: `sel k` the tournament index pair for slot
`k`, `flip k` the crossover coins of child `k`, `mut k` the mutation draws of
child `k`. -/
structure GenRand where
  sel : ℕ → ℕ × ℕ
  flip : ℕ → ℕ → Bool
  mutDraws : ℕ → MutRand

/-- One generation of `GeneticAlgorithmDetector.fit` acting on
`(best, bestFit, population)`: evaluate fitnesses, track the best individual
seen so far, select by binary tournament, breed pairwise, mutate every child,
and truncate to the population size. -/
def gaGen (O : Oracle) (X : List Col) (nrows : ℕ) (labels : Option (List Bool))
    (popSize : ℕ) (g : GenRand) (s : Option Ind × Option ℚ × List Ind) :
    Option Ind × Option ℚ × List Ind :=
  let pop := s.2.2
  let fits := pop.map (fitness O X nrows labels)
  let bi := argmaxIdx fits
  let bestPair :=
    if gtBest (fits.getD bi 0) s.2.1 then (some (pop.getD bi dummyInd), some (fits.getD bi 0))
    else (s.1, s.2.1)
  let survivors := (List.range popSize).map (fun k => tournament pop fits (g.sel k))
  let children := (breed g.flip 0 survivors).enum.map (fun kc => mutate (g.mutDraws kc.1) kc.2)
  (bestPair.1, bestPair.2, children.take popSize)

/-- `GeneticAlgorithmDetector.fit`: reinitialise the population from fresh
creation draws (`init k`), then run `generations` generations; only
`best_individual`/`best_fitness` of the prior state survive into the run. -/
def gaFit (O : Oracle) (st : GAState) (X : List Col) (nrows : ℕ)
    (labels : Option (List Bool)) (init : ℕ → List ℚ × ℚ) (gens : ℕ → GenRand) : GAState :=
  let pop0 := (List.range st.popSize).map (fun k => createInd (init k))
  let final := (List.range st.generations).foldl
    (fun s gIdx => gaGen O X nrows labels st.popSize (gens gIdx) s)
    (st.best, st.bestFit, pop0)
  { st with best := final.1, bestFit := final.2.1 }

/-- `np.percentile(l, 95)` with the default linear interpolation between the
two nearest order statistics. -/
def percentile95 (l : List ℚ) : ℚ :=
  let s := l.mergeSort (fun a b => decide (a ≤ b))
  let n := l.length
  if n = 0 then 0
  else
    let h : ℚ := (19 * ((n : ℚ) - 1)) / 20
    let lo : ℕ := (Int.floor h).toNat
    let x0 := s.getD lo 0
    let x1 := s.getD (lo + 1) x0
    x0 + (h - lo) * (x1 - x0)

/-- `np.percentile` over possibly-NaN data: NaN if any entry is NaN (and the
empty case, which numpy rejects, is mapped to NaN as well). -/
def percentileF (l : List F) : F :=
  if l.isEmpty ∨ l.any (fun v => v.isNone) then none
  else some (percentile95 (l.filterMap id))

/-- `GeneticAlgorithmDetector.predict`: with no evolved individual return
`np.zeros(nrows)`; otherwise project the standardised matrix on the best
weights, take absolute values, and rescale by the ε-guarded 95th percentile,
clipped to 1. -/
def gaPredict (O : Oracle) (st : GAState) (nrows : ℕ) (X : List Col) : List F :=
  match st.best with
  | none => List.replicate nrows (some 0)
  | some ind =>
    let raw := (gaScores ind.weights (gaNormalize O X) nrows).map absF
    let p := percentileF raw
    raw.map (fun s => fMinC (fDiv s (fAdd p (some eps))) 1)

/-! ## EnsembleAIDetector -/

/-- The ensemble's technique weights. -/
structure EnsWeights where
  fuzzy : ℚ
  expert : ℚ
  timeseries : ℚ
  genetic : ℚ
deriving DecidableEq

/-- Sum of the configured weights (`sum(detector.weights.values())`). -/
def EnsWeights.total (w : EnsWeights) : ℚ := w.fuzzy + w.expert + w.timeseries + w.genetic

/-- The default equal weights of `EnsembleAIDetector.__init__`. -/
def defaultEnsWeights : EnsWeights := ⟨1 / 4, 1 / 4, 1 / 4, 1 / 4⟩

/-- State of `EnsembleAIDetector`: one instance of each technique plus the
configured weights. -/
structure EnsembleState (ρ κ : Type) where
  fuzzy : FuzzyState
  expert : ExpertState ρ κ
  timeseries : TSState
  genetic : GAState
  weights : EnsWeights

/-- `EnsembleAIDetector.__init__`: build the four sub-detectors (the expert
system starts with no rules, and nothing in the ensemble ever registers one)
and store the given weights unchanged, defaulting to equal quarters; there is
no validation and no renormalisation, so construction always succeeds. -/
def mkEnsemble (ρ κ : Type) (w : Option EnsWeights) : EnsembleState ρ κ :=
  { fuzzy := mkFuzzy none
    expert := ⟨[], none⟩
    timeseries := mkTS
    genetic := mkGA 15 8
    weights := w.getD defaultEnsWeights }

/-- `EnsembleAIDetector.predict`: accumulate the weighted sub-scores onto
`np.zeros(nrows)`; the expert term is added only when the input has `dtypes`
(is a pandas frame), whose rows are `rows`. -/
def ensPredict {ρ κ : Type} (O : Oracle) (st : EnsembleState ρ κ) (hasDtypes : Bool)
    (nrows : ℕ) (X : List Col) (rows : List ρ) : List F :=
  let s0 : List F := List.replicate nrows (some 0)
  let s1 := List.zipWith fAdd s0
    ((fuzzyPredict O st.fuzzy nrows X).map (fun q => some (st.weights.fuzzy * q)))
  let s2 :=
    if hasDtypes then
      List.zipWith fAdd s1
        ((expertPredict st.expert rows).map (fun q => some (st.weights.expert * q)))
    else s1
  let s3 := List.zipWith fAdd s2
    ((tsPredict st.timeseries nrows X).map (fun v => v.map (fun x => st.weights.timeseries * x)))
  List.zipWith fAdd s3
    ((gaPredict O st.genetic nrows X).map (fun v => v.map (fun x => st.weights.genetic * x)))

/-! ## Reference-semantics model of `GeneticAlgorithmDetector.fit`

Python dicts hold a reference to their weights ndarray, and `dict.copy()`
copies the reference and the scalar threshold only.  `WStore` is the heap of
live ndarrays; an `IndR` is a chromosome dict.  No two holders ever share a
dict (every copy makes a new dict), so dicts are modelled as values; the
arrays are shared and live in the store. -/

/-- The heap of weight ndarrays. -/
abbrev WStore : Type := List (List ℚ)

/-- A chromosome dict: `weights` is a reference into the store, `threshold` a
scalar held by value. -/
structure IndR where
  wid : ℕ
  threshold : ℚ
deriving DecidableEq

/-- Placeholder dict for out-of-range list accesses (never reached below). -/
def dummyIndR : IndR := ⟨0, 0⟩

/-- Allocate a fresh ndarray, returning the new store and the reference. -/
def allocW (σ : WStore) (w : List ℚ) : WStore × ℕ := (σ ++ [w], σ.length)

/-- Read a chromosome's weight vector through the store. -/
def readW (σ : WStore) (ind : IndR) : List ℚ := σ.getD ind.wid []

/-- `_create_individual` under reference semantics: the dirichlet draw becomes
a fresh array. -/
def createIndR (σ : WStore) (d : List ℚ × ℚ) : WStore × IndR :=
  let a := allocW σ d.1
  (a.1, ⟨a.2, d.2⟩)

/-- `_crossover` under reference semantics: the child dict gets a fresh array
holding the renormalised uniform mix of the parents' current arrays (the
`np.zeros_like` scratch array is dead on return and is not modelled). -/
def crossoverR (flip : ℕ → Bool) (σ : WStore) (p1 p2 : IndR) : WStore × IndR :=
  let w1 := readW σ p1
  let w2 := readW σ p2
  let w := (List.range w1.length).map (fun i => if flip i then w1.getD i 0 else w2.getD i 0)
  let a := allocW σ (renorm w)
  (a.1, ⟨a.2, (p1.threshold + p2.threshold) / 2⟩)

/-- `_mutate` under reference semantics, the heart of the divergence: line 324
writes the replacement weight INTO THE SHARED ARRAY (`σ.set ind.wid`), and
only then line 325 rebinds this dict's entry to a fresh renormalised array;
every other dict holding the same array keeps the corrupted, un-renormalised
vector.  The threshold is a scalar and mutates only this dict. -/
def mutateR (m : MutRand) (σ : WStore) (ind : IndR) : WStore × IndR :=
  let sw : WStore × IndR :=
    if m.r1 < 1 / 10 then
      let corrupted := (readW σ ind).set m.idx m.w
      let σ1 := σ.set ind.wid corrupted
      let a := allocW σ1 (renorm corrupted)
      (a.1, ⟨a.2, ind.threshold⟩)
    else (σ, ind)
  let t := if m.r2 < 1 / 10 then clip (sw.2.threshold + m.noise) (1 / 10) (9 / 10)
    else sw.2.threshold
  (sw.1, ⟨sw.2.wid, t⟩)

/-- `_fitness` reads the weights through the store. -/
def fitnessR (O : Oracle) (X : List Col) (nrows : ℕ) (labels : Option (List Bool))
    (σ : WStore) (ind : IndR) : ℚ :=
  fitness O X nrows labels ⟨readW σ ind, ind.threshold⟩

/-- Tournament selection for one slot under reference semantics:
`population[idx].copy()` is a shallow dict copy, i.e. the same
reference/threshold pair (ties keep the second index, as in the source). -/
def tournamentR (pop : List IndR) (fits : List ℚ) (pr : ℕ × ℕ) : IndR :=
  if fits.getD pr.2 0 < fits.getD pr.1 0 then pop.getD pr.1 dummyIndR
  else pop.getD pr.2 dummyIndR

/-- The crossover-and-mutation loop of `fit` under reference semantics, in
source order: each pair of survivors yields two crossover children, each
mutated right after its creation; an odd trailing survivor yields two shallow
copies of itself — sharing its array — which are both mutated. -/
def breedMutR (flip : ℕ → ℕ → Bool) (md : ℕ → MutRand) (k : ℕ) (σ : WStore) :
    List IndR → WStore × List IndR
  | p1 :: p2 :: rest =>
    let c1 := crossoverR (flip k) σ p1 p2
    let c2 := crossoverR (flip (k + 1)) c1.1 p2 p1
    let m1 := mutateR (md k) c2.1 c1.2
    let m2 := mutateR (md (k + 1)) m1.1 c2.2
    let r := breedMutR flip md (k + 2) m2.1 rest
    (r.1, m1.2 :: m2.2 :: r.2)
  | [p] =>
    let m1 := mutateR (md k) σ p
    let m2 := mutateR (md (k + 1)) m1.1 p
    (m2.1, [m1.2, m2.2])
  | [] => (σ, [])

/-- One generation of `fit` under reference semantics:
`self.best_individual = population[best_idx].copy()` (line 355) is a shallow
copy, so the tracked best SHARES its weights array with the population member
it came from, and the store keeps evolving after the copy. -/
def gaGenR (O : Oracle) (X : List Col) (nrows : ℕ) (labels : Option (List Bool))
    (popSize : ℕ) (g : GenRand) (s : WStore × Option IndR × Option ℚ × List IndR) :
    WStore × Option IndR × Option ℚ × List IndR :=
  let σ := s.1
  let pop := s.2.2.2
  let fits := pop.map (fitnessR O X nrows labels σ)
  let bi := argmaxIdx fits
  let bestPair :=
    if gtBest (fits.getD bi 0) s.2.2.1 then
      (some (pop.getD bi dummyIndR), some (fits.getD bi 0))
    else (s.2.1, s.2.2.1)
  let bm := breedMutR g.flip g.mutDraws 0 σ
    ((List.range popSize).map (fun k => tournamentR pop fits (g.sel k)))
  (bm.1, bestPair.1, bestPair.2, bm.2.take popSize)

/-- `fit` under reference semantics, on an explicit heap. -/
def gaFitR (O : Oracle) (popSize generations : ℕ) (best0 : Option IndR)
    (bestFit0 : Option ℚ) (X : List Col) (nrows : ℕ) (labels : Option (List Bool))
    (init : ℕ → List ℚ × ℚ) (gens : ℕ → GenRand) (σ0 : WStore) :
    WStore × Option IndR × Option ℚ × List IndR :=
  let p0 := (List.range popSize).foldl
    (fun acc k =>
      let c := createIndR acc.1 (init k)
      (c.1, acc.2 ++ [c.2]))
    (σ0, ([] : List IndR))
  (List.range generations).foldl
    (fun s gIdx => gaGenR O X nrows labels popSize (gens gIdx) s)
    (p0.1, best0, bestFit0, p0.2)

/-- A two-column fit matrix for the corruption run (its values are irrelevant:
the run below is insensitive to the fitness values). -/
def X5 : List Col := [[some 5, some 5], [some 5, some 5]]

/-- The per-generation draws of the corruption run: the third tournament slot
draws `(1, 0)` and so re-selects (via the tie-breaking second index) the
individual just recorded as best; the mutation draws fire only for child 2,
the first odd-tail child, replacing its weight at index 0 by `3/4`. -/
def g5 : GenRand :=
  ⟨fun k => if k = 2 then (1, 0) else (0, 1), fun _ _ => true,
    fun k => if k = 2 then ⟨0, 0, 3 / 4, 1, 0⟩ else ⟨1, 0, 1 / 2, 1, 0⟩⟩

/-- The corruption run: an odd population size (3; the ensemble uses 15), one
generation, every creation draw `([1/2, 1/2], 1/2)`.  The tracked best (the
first individual, by first-max argmax) shares its array with the third
survivor, hence with both odd-tail children; child 2's in-place weight
mutation then corrupts the tracked best's array. -/
def run5 : WStore × Option IndR × Option ℚ × List IndR :=
  gaFitR oracleC 3 1 none none X5 2 none (fun _ => ([1 / 2, 1 / 2], 1 / 2)) (fun _ => g5) []

/-! ## Invariants and input-validity predicates -/

/-- The chromosome invariant maintained by the genetic algorithm in exact
arithmetic: weights of the right arity, strictly positive (the almost-sure
support of the draws), summing to exactly 1, and a threshold in `[0.1, 0.9]`. -/
def ChromOK (n : ℕ) (ind : Ind) : Prop :=
  ind.weights.length = n ∧ (∀ w ∈ ind.weights, 0 < w) ∧ ind.weights.sum = 1 ∧
    1 / 10 ≤ ind.threshold ∧ ind.threshold ≤ 9 / 10

/-- The chromosome property exactly as the specification states it: weights
nonnegative and summing to 1 within `1e-6`, threshold in `[0.1, 0.9]`. -/
def ChromSpecOK (ind : Ind) : Prop :=
  |ind.weights.sum - 1| ≤ 1 / 1000000 ∧ (∀ w ∈ ind.weights, 0 ≤ w) ∧
    1 / 10 ≤ ind.threshold ∧ ind.threshold ≤ 9 / 10

/-- Support of the creation draws: `np.random.dirichlet(np.ones n)` lies in the
`n`-simplex (almost surely with strictly positive coordinates) and
`np.random.uniform(0.3, 0.7)` lies in `[0.3, 0.7]`. -/
def DirOK (n : ℕ) (d : List ℚ × ℚ) : Prop :=
  d.1.length = n ∧ (∀ w ∈ d.1, 0 < w) ∧ d.1.sum = 1 ∧ 3 / 10 ≤ d.2 ∧ d.2 ≤ 7 / 10

/-- Support of the mutation draws: the replacement weight from
`np.random.random()` is (almost surely) in `(0, 1)` and the mutated index from
`np.random.randint` is in range. -/
def MutOK (n : ℕ) (m : MutRand) : Prop := 0 < m.w ∧ m.w < 1 ∧ m.idx < n

/-- Support of one generation's draws: tournament indices in range and every
mutation draw admissible. -/
def GenOK (popSize n : ℕ) (g : GenRand) : Prop :=
  (∀ k, (g.sel k).1 < popSize ∧ (g.sel k).2 < popSize) ∧ ∀ k, MutOK n (g.mutDraws k)

/-- A rectangular, NaN-free predict-time matrix: every column has `nrows`
entries, none of them NaN. -/
@[reducible] def CleanCols (nrows : ℕ) (X : List Col) : Prop :=
  ∀ col ∈ X, col.length = nrows ∧ ∀ v ∈ col, v.isSome = true

/-- Fit-time requirement for the forecaster: every column has `nrows` entries
and starts with a non-NaN value (interior NaNs are forward-filled by `fit`; a
leading NaN would poison the whole forecast curve). -/
@[reducible] def TSFitOK (nrows : ℕ) (X : List Col) : Prop :=
  ∀ col ∈ X, col.length = nrows ∧ (col.headD (some 0)).isSome = true

/-! ## Generic list lemmas -/

theorem mem_zipWith {α β γ : Type} {f : α → β → γ} :
    ∀ {as : List α} {bs : List β} {x : γ}, x ∈ List.zipWith f as bs →
      ∃ a ∈ as, ∃ b ∈ bs, x = f a b := by
  intro as
  induction as with
  | nil => intro bs x hx; simp [List.zipWith] at hx
  | cons a as ih =>
    intro bs x hx
    cases bs with
    | nil => simp [List.zipWith] at hx
    | cons b bs =>
      simp only [List.zipWith, List.mem_cons] at hx
      rcases hx with h | h
      · exact ⟨a, by simp, b, by simp, h⟩
      · rcases ih h with ⟨a', ha', b', hb', hx'⟩
        exact ⟨a', by simp [ha'], b', by simp [hb'], hx'⟩

theorem getD_zipWith {α β γ : Type} (f : α → β → γ) :
    ∀ (as : List α) (bs : List β) (i : ℕ) (da : α) (db : β) (d : γ),
      i < as.length → i < bs.length →
      (List.zipWith f as bs).getD i d = f (as.getD i da) (bs.getD i db) := by
  intro as
  induction as with
  | nil => intro bs i da db d h _; simp at h
  | cons a as ih =>
    intro bs i da db d ha hb
    cases bs with
    | nil => simp at hb
    | cons b bs =>
      cases i with
      | zero => simp [List.getD]
      | succ i =>
        simp only [List.zipWith, List.getD_cons_succ]
        exact ih bs i da db d (by simpa using ha) (by simpa using hb)

theorem getD_map {α β : Type} (f : α → β) :
    ∀ (l : List α) (i : ℕ) (da : α) (d : β), i < l.length →
      (l.map f).getD i d = f (l.getD i da) := by
  intro l
  induction l with
  | nil => intro i da d h; simp at h
  | cons a l ih =>
    intro i da d h
    cases i with
    | zero => simp [List.getD]
    | succ i => simpa [List.getD_cons_succ] using ih i da d (by simpa using h)

theorem getD_replicate {α : Type} (a d : α) :
    ∀ (n i : ℕ), i < n → (List.replicate n a).getD i d = a := by
  intro n
  induction n with
  | zero => intro i h; omega
  | succ n ih =>
    intro i h
    cases i with
    | zero => simp [List.replicate, List.getD]
    | succ i => simpa [List.replicate, List.getD_cons_succ] using ih i (by omega)

/-! ## Membership bounds -/

theorem eps_pos : (0 : ℚ) < eps := by norm_num [eps]

theorem triangularMembership_bound (x a b c : ℚ) :
    0 ≤ triangularMembership x a b c ∧ triangularMembership x a b c ≤ 1 := by
  unfold triangularMembership
  split
  · norm_num
  · rename_i h1
    push_neg at h1
    obtain ⟨hax, hxc⟩ := h1
    split
    · rename_i h2
      obtain ⟨hax', hxb⟩ := h2
      have hd : 0 < b - a + eps := by have := eps_pos; linarith
      constructor
      · exact div_nonneg (by linarith) (le_of_lt hd)
      · rw [div_le_one hd]; have := eps_pos; linarith
    · rename_i h2
      have hbx : b < x := by
        by_contra hb
        exact h2 ⟨hax, le_of_not_lt hb⟩
      have hd : 0 < c - b + eps := by have := eps_pos; linarith
      constructor
      · exact div_nonneg (by linarith) (le_of_lt hd)
      · rw [div_le_one hd]; have := eps_pos; linarith

theorem memMF_bound (O : Oracle) (hO : O.Valid) (mf : MF) (x : ℚ) :
    0 ≤ memMF O mf x ∧ memMF O mf x ≤ 1 := by
  cases mf with
  | tri a b c => exact triangularMembership_bound x a b c
  | gauss m s =>
    have hden : (0 : ℚ) < 2 * s ^ 2 + eps := by
      have := eps_pos; nlinarith [sq_nonneg s]
    have harg : -((x - m) ^ 2) / (2 * s ^ 2 + eps) ≤ 0 := by
      apply div_nonpos_of_nonpos_of_nonneg
      · nlinarith [sq_nonneg (x - m)]
      · linarith
    have h := hO.2.2 _ harg
    exact ⟨le_of_lt h.1, h.2⟩

theorem memNormal_bound (O : Oracle) (hO : O.Valid) (sets : List (String × MF)) (x : ℚ) :
    0 ≤ memNormal O sets x ∧ memNormal O sets x ≤ 1 := by
  unfold memNormal
  cases h : sets.find? (fun p => p.1 == "normal") with
  | none => norm_num
  | some p => exact memMF_bound O hO p.2 x

/-! ## Fuzzy predict bounds -/

theorem fuzzyNormalize_isSome (O : Oracle) (col : Col)
    (hcol : ∀ v ∈ col, v.isSome = true) :
    ∀ v ∈ fuzzyNormalize O col, v.isSome = true := by
  intro v hv
  unfold fuzzyNormalize at hv
  by_cases he : (nanVals col).isEmpty
  · simp only [he, if_true] at hv
    exact hcol v hv
  · simp only [he, if_false] at hv
    by_cases hz : varQ (nanVals col) = 0
    · simp only [hz, if_true] at hv
      rcases List.mem_map.mp hv with ⟨x, _, hx⟩
      simp [← hx]
    · simp only [hz, if_false] at hv
      rcases List.mem_map.mp hv with ⟨x, hxm, hx⟩
      have := hcol x hxm
      cases x with
      | none => simp at this
      | some q => simp [← hx]

theorem fuzzyColScores_bound (O : Oracle) (hO : O.Valid) (sets : List (String × MF))
    (ncols : ℕ) (hn : 1 ≤ ncols) (col : Col) (hcol : ∀ v ∈ col, v.isSome = true) :
    ∀ s ∈ fuzzyColScores O sets ncols col, 0 ≤ s ∧ s ≤ 1 / (ncols : ℚ) := by
  intro s hs
  unfold fuzzyColScores at hs
  rcases List.mem_map.mp hs with ⟨v, hvm, hv⟩
  have hvs := fuzzyNormalize_isSome O col hcol v hvm
  cases v with
  | none => simp at hvs
  | some x =>
    simp only at hv
    have hm := memNormal_bound O hO sets x
    have hnc : (0 : ℚ) < (ncols : ℚ) := by exact_mod_cast hn
    subst hv
    constructor
    · exact div_nonneg (by linarith [hm.2]) (le_of_lt hnc)
    · exact div_le_div_of_nonneg_right (by linarith [hm.1]) hnc.le |>.trans_eq rfl

theorem foldl_zipWith_add_bound {γ : Type} (g : γ → List ℚ) (step : ℚ) :
    ∀ (cols : List γ) (acc : List ℚ) (lo hi : ℚ),
      (∀ a ∈ acc, lo ≤ a ∧ a ≤ hi) →
      (∀ c ∈ cols, ∀ s ∈ g c, 0 ≤ s ∧ s ≤ step) →
      ∀ x ∈ cols.foldl (fun acc c => List.zipWith (· + ·) acc (g c)) acc,
        lo ≤ x ∧ x ≤ hi + (cols.length : ℚ) * step := by
  intro cols
  induction cols with
  | nil =>
    intro acc lo hi hacc _ x hx
    have := hacc x hx
    simpa using this
  | cons c cols ih =>
    intro acc lo hi hacc hg x hx
    simp only [List.foldl_cons] at hx
    have hacc' : ∀ a ∈ List.zipWith (· + ·) acc (g c), lo ≤ a ∧ a ≤ hi + step := by
      intro a ha
      rcases mem_zipWith ha with ⟨u, hu, v, hv, hav⟩
      have h1 := hacc u hu
      have h2 := hg c (by simp) v hv
      subst hav
      exact ⟨by linarith [h1.1, h2.1], by linarith [h1.2, h2.2]⟩
    have hg' : ∀ c' ∈ cols, ∀ s ∈ g c', 0 ≤ s ∧ s ≤ step := by
      intro c' hc'
      exact hg c' (by simp [hc'])
    have := ih (List.zipWith (· + ·) acc (g c)) lo (hi + step) hacc' hg' x hx
    refine ⟨this.1, this.2.trans_eq ?_⟩
    simp only [List.length_cons]
    push_cast
    ring

theorem fuzzyPredict_bounds (O : Oracle) (hO : O.Valid) (st : FuzzyState) (nrows : ℕ)
    (X : List Col) (hX : CleanCols nrows X) :
    ∀ s ∈ fuzzyPredict O st nrows X, 0 ≤ s ∧ s ≤ 1 := by
  unfold fuzzyPredict
  cases hXe : X with
  | nil =>
    intro s hs
    simp only [List.foldl_nil] at hs
    have := List.eq_of_mem_replicate hs
    subst this
    norm_num
  | cons c0 rest =>
    intro s hs
    have hn : 1 ≤ X.length := by rw [hXe]; simp
    rw [← hXe] at hs
    have hb := foldl_zipWith_add_bound (fuzzyColScores O st.fuzzySets X.length)
      (1 / (X.length : ℚ)) X (List.replicate nrows 0) 0 0
      (by intro a ha; have := List.eq_of_mem_replicate ha; subst this; norm_num)
      (by intro c hc
          exact fuzzyColScores_bound O hO st.fuzzySets X.length hn c (hX c hc).2)
      s hs
    have hnc : (0 : ℚ) < (X.length : ℚ) := by exact_mod_cast hn
    refine ⟨hb.1, ?_⟩
    have h2 := hb.2
    rw [zero_add] at h2
    calc s ≤ (X.length : ℚ) * (1 / (X.length : ℚ)) := h2
    _ = 1 := by field_simp

/-! ## Claims C1, C2 (counterexample), C3, C6, C10 -/

/-! ## Concrete evaluation helpers for the counterexample column `[0, 2, NaN]`
(non-NaN variance exactly 1, so `oracleC` agrees with the true square root) -/

theorem nanVals_cexCol : nanVals [some 0, some 2, none] = [0, 2] := by simp [nanVals]

theorem varQ_cexCol : varQ [0, 2] = 1 := by norm_num [varQ, meanQ]

theorem meanQ_cexCol : meanQ [0, 2] = 1 := by norm_num [meanQ]

theorem fuzzyNormalize_cexCol :
    fuzzyNormalize oracleC [some 0, some 2, none]
      = [some (-(300000000 / 100000001)), some (300000000 / 100000001), none] := by
  simp [fuzzyNormalize, nanVals_cexCol, varQ_cexCol, meanQ_cexCol, oracleC]
  norm_num [eps]

theorem memNormal_cexL : memNormal oracleC defaultFuzzySets (-(300000000 / 100000001)) = 0 := by
  norm_num [memNormal, defaultFuzzySets, memMF, triangularMembership, eps, List.find?]

theorem memNormal_cexR : memNormal oracleC defaultFuzzySets (300000000 / 100000001) = 0 := by
  norm_num [memNormal, defaultFuzzySets, memMF, triangularMembership, eps, List.find?]

theorem fuzzyColScores_cex3 :
    fuzzyColScores oracleC defaultFuzzySets 3 [some 0, some 2, none] = [1 / 3, 1 / 3, 1 / 2] := by
  simp [fuzzyColScores, fuzzyNormalize_cexCol, memNormal_cexL, memNormal_cexR]

theorem fuzzyColScores_cex2 :
    fuzzyColScores oracleC defaultFuzzySets 2 [some 0, some 2, none] = [1 / 2, 1 / 2, 1 / 2] := by
  simp [fuzzyColScores, fuzzyNormalize_cexCol, memNormal_cexL, memNormal_cexR]

/-- C1, counterexample: constructing the ensemble with weights summing to 0.9
does not fail — `EnsembleAIDetector.__init__` is total, performs no validation,
and stores the mapping unchanged, so the claim that construction fails with a
configuration error is false on the code. -/
theorem c1_bad_weights_accepted :
    (mkEnsemble Unit Unit (some ⟨1 / 5, 1 / 4, 1 / 4, 1 / 5⟩)).weights
        = ⟨1 / 5, 1 / 4, 1 / 4, 1 / 5⟩ ∧
      EnsWeights.total ⟨1 / 5, 1 / 4, 1 / 4, 1 / 5⟩ = 9 / 10 ∧ (9 / 10 : ℚ) ≠ 1 := by
  refine ⟨rfl, by norm_num [EnsWeights.total], by norm_num⟩

/-- C1 (amended): ensemble construction never fails and never renormalises —
any weights mapping, whatever its sum, is stored verbatim.  (It remains true
that weights are never silently renormalised; what fails is the claim that a
bad sum is rejected.) -/
theorem c1_construction_stores_weights (ρ κ : Type) (w : EnsWeights) :
    (mkEnsemble ρ κ (some w)).weights = w := rfl

/-- C2, counterexample: a fitted default `FuzzyLogicDetector` on a 3-column
matrix whose third row is entirely NaN scores that row `0.5 + 0.5 + 0.5 = 1.5`,
outside `[0, 1]`, because each missing value adds `0.5` undivided. -/
theorem c2_nan_row_scores_above_one :
    (fuzzyPredict oracleC (mkFuzzy none) 3
        [[some 0, some 2, none], [some 0, some 2, none], [some 0, some 2, none]]).getD 2 0
        = 3 / 2 ∧
      ¬((3 / 2 : ℚ) ≤ 1) := by
  constructor
  · have h : (mkFuzzy none).fuzzySets = defaultFuzzySets := rfl
    simp [fuzzyPredict, h, fuzzyColScores_cex3, List.replicate]
    norm_num
  · norm_num

/-- C3: the code adds `0.5` (not `0.5 / num_columns`) per missing value — on a
2-column matrix whose third row is entirely NaN the row scores `1.0`, where the
claimed `0.5 / num_columns` contribution would give `0.5`.  This contradicts
`predict`'s own `[0, 1]` documentation (see the 3-column case of C2), so the
spec is taken as the intent and the missing division as the slip. -/
theorem c3_missing_value_adds_half :
    (fuzzyPredict oracleC (mkFuzzy none) 3
        [[some 0, some 2, none], [some 0, some 2, none]]).getD 2 0 = 1 ∧
      (1 : ℚ) ≠ 2 * (1 / 2 / 2) := by
  constructor
  · have h : (mkFuzzy none).fuzzySets = defaultFuzzySets := rfl
    simp [fuzzyPredict, h, fuzzyColScores_cex2, List.replicate]
    norm_num
  · norm_num

/-- C6, counterexample: at the declared peak of the default `'normal'` set
(`a = -1, b = 0, c = 1`) the triangular membership is `1 / (1 + 1e-8)`, not
exactly 1. -/
theorem c6_peak_not_exactly_one : triangularMembership 0 (-1) 0 1 ≠ 1 := by
  norm_num [triangularMembership, eps]

/-- C6 (amended): at its declared peak `b` (with `a < b < c`) the triangular
membership function returns `(b - a) / (b - a + 1e-8)`, which is strictly less
than 1 (the ε guard keeps the peak just below 1); it does return exactly 0 for
every `x` with `x ≤ a` or `x ≥ c`. -/
theorem c6_triangular_peak_and_edges :
    (∀ a b c : ℚ, a < b → b < c →
        triangularMembership b a b c = (b - a) / (b - a + eps) ∧
          triangularMembership b a b c < 1) ∧
      ∀ x a b c : ℚ, x ≤ a ∨ c ≤ x → triangularMembership x a b c = 0 := by
  constructor
  · intro a b c hab hbc
    have hne : ¬(b ≤ a ∨ c ≤ b) := by push_neg; exact ⟨hab, hbc⟩
    have hpk : a < b ∧ b ≤ b := ⟨hab, le_refl b⟩
    have hval : triangularMembership b a b c = (b - a) / (b - a + eps) := by
      unfold triangularMembership
      rw [if_neg hne, if_pos hpk]
    refine ⟨hval, ?_⟩
    rw [hval]
    have hd : 0 < b - a + eps := by have := eps_pos; linarith
    rw [div_lt_one hd]
    have := eps_pos
    linarith
  · intro x a b c h
    unfold triangularMembership
    rw [if_pos h]

/-- Witness for `c6_triangular_peak_and_edges` at the default `'normal'`
parameters and at `x = 5` beyond the right edge. -/
theorem c6_triangular_peak_and_edges_w :
    triangularMembership 0 (-1) 0 1 = (0 - (-1)) / (0 - (-1) + eps) ∧
      triangularMembership 0 (-1) 0 1 < 1 ∧ triangularMembership 5 (-1) 0 1 = 0 := by
  refine ⟨(c6_triangular_peak_and_edges.1 (-1) 0 1 (by norm_num) (by norm_num)).1,
    (c6_triangular_peak_and_edges.1 (-1) 0 1 (by norm_num) (by norm_num)).2,
    c6_triangular_peak_and_edges.2 5 (-1) 0 1 (by norm_num)⟩

/-- C10: `FuzzyLogicDetector.predict` depends only on the predict-time input
and the fuzzy sets fixed at construction — `fit` writes only `scaler_params`,
which `predict` never reads (normalisation is recomputed from the predict
input), so two detectors with the same fuzzy sets fit on different matrices
produce identical score vectors. -/
theorem c10_fuzzy_predict_ignores_fit (O : Oracle) (sets : Option (List (String × MF)))
    (A B X : List Col) (nrows : ℕ) :
    fuzzyPredict O (fuzzyFit O (mkFuzzy sets) A) nrows X
      = fuzzyPredict O (fuzzyFit O (mkFuzzy sets) B) nrows X := rfl

/-! ## Claims C7 and C8 -/

theorem oracleC_valid : Oracle.Valid oracleC := by
  refine ⟨?_, ?_, ?_⟩
  · intro v hv
    simp only [oracleC]
    split <;> norm_num
  · intro v hv
    simp only [oracleC]
    split <;> simp_all
  · intro z hz
    simp [oracleC]

theorem expertRowScore_single_errored {p k : Type} (r : Rule p k) (ctx : Option k)
    (hc : ∀ x c, r.cond x c = RuleEval.errored) (row : p) :
    expertRowScore [r] ctx row = 1 / 2 := by
  unfold expertRowScore
  simp [hc row ctx, meanQ]

/-- C7: an `ExpertSystemDetector` holding exactly one rule whose predicate
raises on every row returns the uniform `0.5` vector on any frame — the raising
predicate contributes the neutral `0.5` for each row instead of aborting the
batch. -/
theorem c7_errored_rule_uniform_half {p k : Type} (st : ExpertState p k) (r : Rule p k)
    (hr : st.rules = [r]) (hc : ∀ x c, r.cond x c = RuleEval.errored) (rows : List p) :
    expertPredict st rows = List.replicate rows.length (1 / 2) := by
  unfold expertPredict
  rw [hr]
  induction rows with
  | nil => rfl
  | cons a rows ih =>
    simp only [List.map_cons, List.length_cons, List.replicate_succ]
    rw [expertRowScore_single_errored r st.ctx hc a, ih]

/-- Witness for `c7_errored_rule_uniform_half`: a two-row frame and one rule
whose predicate always reports an evaluation error. -/
theorem c7_errored_rule_uniform_half_w :
    expertPredict (⟨[⟨"always raises", fun _ _ => RuleEval.errored, 1⟩], none⟩ :
        ExpertState Unit Unit) [(), ()]
      = List.replicate 2 (1 / 2) :=
  c7_errored_rule_uniform_half ⟨[⟨"always raises", fun _ _ => RuleEval.errored, 1⟩], none⟩
    ⟨"always raises", fun _ _ => RuleEval.errored, 1⟩ rfl (fun _ _ => rfl) [(), ()]

theorem ffillFrom_of_somes : ∀ (l : Col) (prev : F), (∀ v ∈ l, v.isSome = true) →
    ffillFrom prev l = l := by
  intro l
  induction l with
  | nil => intro prev _; rfl
  | cons x rest ih =>
    intro prev h
    have hx : x.isSome = true := h x (by simp)
    cases x with
    | none => simp at hx
    | some q =>
      simp only [ffillFrom]
      rw [ih (some q) (fun v hv => h v (by simp [hv]))]

theorem ffill_of_somes (col : Col) (h : ∀ v ∈ col, v.isSome = true) : ffill col = col := by
  cases col with
  | nil => rfl
  | cons x rest =>
    simp only [ffill]
    rw [ffillFrom_of_somes rest x (fun v hv => h v (by simp [hv]))]

theorem smoothFrom_const (α c : ℚ) : ∀ n : ℕ,
    smoothFrom α (some c) (List.replicate n (some c)) = List.replicate n (some c) := by
  intro n
  induction n with
  | zero => rfl
  | succ n ih =>
    simp only [List.replicate_succ, smoothFrom]
    have : α * c + (1 - α) * c = c := by ring
    rw [this, ih]

theorem zipWith_replicate_both {α β γ : Type} (f : α → β → γ) (a : α) (b : β) : ∀ n : ℕ,
    List.zipWith f (List.replicate n a) (List.replicate n b) = List.replicate n (f a b) := by
  intro n
  induction n with
  | zero => rfl
  | succ n ih => simp only [List.replicate_succ, List.zipWith_cons_cons, ih]

theorem nanVals_replicate_some (q : ℚ) : ∀ n : ℕ,
    nanVals (List.replicate n (some q)) = List.replicate n q := by
  intro n
  induction n with
  | zero => rfl
  | succ n ih => simp only [List.replicate_succ, nanVals, ih]

theorem varQ_replicate (c : ℚ) (n : ℕ) : varQ (List.replicate n c) = 0 := by
  cases n with
  | zero => simp [varQ, meanQ]
  | succ n =>
    have hm : meanQ (List.replicate (n + 1) c) = c := by
      unfold meanQ
      rw [List.sum_replicate, List.length_replicate]
      push_cast
      rw [nsmul_eq_mul]
      push_cast
      field_simp
    unfold varQ
    rw [hm, List.map_replicate]
    simp

theorem expSmooth_const (O : Oracle) (hO : O.Valid) (α c : ℚ) (m : ℕ) :
    expSmooth O α (List.replicate (m + 2) (some c))
      = (List.replicate (m + 2) (some c), some 0) := by
  have hrep : List.replicate (m + 2) (some c)
      = some c :: some c :: List.replicate m (some c) := by
    simp [List.replicate_succ]
  have hsm : smoothFrom α (some c) (some c :: List.replicate m (some c))
      = some c :: List.replicate m (some c) := by
    have h := smoothFrom_const α c (m + 1)
    rw [List.replicate_succ] at h
    exact h
  have hsub : fSub (some c) (some c) = some 0 := by simp [fSub]
  have hz : List.zipWith fSub (List.replicate (m + 2) (some c))
      (List.replicate (m + 2) (some c)) = List.replicate (m + 2) (some 0) := by
    rw [zipWith_replicate_both, hsub]
  rw [hrep]
  simp only [expSmooth]
  rw [hsm, ← hrep, hz, nanVals_replicate_some]
  have hne : (List.replicate (m + 2) (0 : ℚ)).isEmpty = false := by
    simp [List.isEmpty_iff]
  rw [hne]
  simp only [Bool.false_eq_true, if_false]
  rw [varQ_replicate]
  have hsq : O.sq 0 = 0 := (hO.2.1 0 le_rfl).mpr rfl
  rw [hsq]

/-- C8, counterexample: fitting on a 3-row all-42 column stores residual sigma
exactly 0, not a strictly positive ε-guarded value (the `+ 1e-8` guard is
applied only inside `predict`). -/
theorem c8_sigma_not_positive :
    (tsFit oracleC mkTS [List.replicate 3 (some 42)]).sigmas.getD 0 (some 1) = some 0 ∧
      ¬((0 : ℚ) < 0) := by
  refine ⟨?_, by norm_num⟩
  have hff : ffill (List.replicate 3 (some (42 : ℚ))) = List.replicate 3 (some 42) :=
    ffill_of_somes _ (by
      intro v hv
      have h := List.eq_of_mem_replicate hv
      simp [h])
  have hes : expSmooth oracleC mkTS.alpha (List.replicate 3 (some 42))
      = (List.replicate 3 (some 42), some 0) :=
    expSmooth_const oracleC oracleC_valid mkTS.alpha 42 1
  unfold tsFit
  rw [List.map_cons, List.map_nil, hff, hes]
  rfl

theorem tsConstEval (O : Oracle) (hO : O.Valid) (st : TSState) (c : ℚ) (m : ℕ) :
    (tsFit O st [List.replicate (m + 2) (some c)]).sigmas.getD 0 (some 1) = some 0 ∧
      tsPredict (tsFit O st [List.replicate (m + 2) (some c)]) (m + 2)
          [List.replicate (m + 2) (some c)]
        = List.replicate (m + 2) (some 0) := by
  have hff : ffill (List.replicate (m + 2) (some c)) = List.replicate (m + 2) (some c) :=
    ffill_of_somes _ (by
      intro v hv
      have h := List.eq_of_mem_replicate hv
      simp [h])
  have hes := expSmooth_const O hO st.alpha c m
  have hfit : tsFit O st [List.replicate (m + 2) (some c)]
      = { st with
            forecasts := [List.replicate (m + 2) (some c)] ++ st.forecasts.drop 1,
            sigmas := [(some 0 : F)] ++ st.sigmas.drop 1 } := by
    unfold tsFit
    rw [List.map_cons, List.map_nil, hff, hes]
    rfl
  rw [hfit]
  refine ⟨rfl, ?_⟩
  unfold tsPredict
  have henum : ([List.replicate (m + 2) (some c)] : List Col).enum
      = [(0, List.replicate (m + 2) (some c))] := rfl
  rw [henum]
  simp only [List.foldl_cons, List.foldl_nil]
  have hcol : tsColScores ([List.replicate (m + 2) (some c)] : List Col).length
      (List.replicate (m + 2) (some c)) (List.replicate (m + 2) (some c)) (some 0)
      = List.replicate (m + 2) (some 0) := by
    unfold tsColScores
    rw [zipWith_replicate_both]
    have : fDiv (fMinC (fDiv (fDiv (absF (fSub (some c) (some c))) (fAdd (some 0) (some eps)))
        (some 5)) 1) (some (([List.replicate (m + 2) (some c)] : List Col).length : ℚ))
        = some 0 := by
      simp [fSub, absF, fAdd, fDiv, fMinC]
    rw [this]
  simp only [List.singleton_append, List.getD_cons_zero]
  rw [hcol, zipWith_replicate_both]
  simp [fAdd]


/-- C8 (amended): fitting a `TimeSeriesForecastingDetector` on a perfectly
constant column of length at least 2 stores residual sigma exactly 0 (the ε
guard is applied at predict time as `sigma + 1e-8`, keeping the division
defined), and predicting on the same matrix yields an all-zero anomaly score
vector. -/
theorem c8_constant_sigma_and_scores (O : Oracle) (hO : O.Valid) (st : TSState)
    (c : ℚ) (n : ℕ) (hn : 2 ≤ n) :
    (tsFit O st [List.replicate n (some c)]).sigmas.getD 0 (some 1) = some 0 ∧
      tsPredict (tsFit O st [List.replicate n (some c)]) n [List.replicate n (some c)]
        = List.replicate n (some 0) := by
  obtain ⟨m, rfl⟩ : ∃ m, n = m + 2 := ⟨n - 2, by omega⟩
  exact tsConstEval O hO st c m

/-- Witness for `c8_constant_sigma_and_scores` at a 3-row all-42 column with
the concrete oracle. -/
theorem c8_constant_sigma_and_scores_w :
    (tsFit oracleC mkTS [List.replicate 3 (some 42)]).sigmas.getD 0 (some 1) = some 0 ∧
      tsPredict (tsFit oracleC mkTS [List.replicate 3 (some 42)]) 3
          [List.replicate 3 (some 42)]
        = List.replicate 3 (some 0) :=
  c8_constant_sigma_and_scores oracleC oracleC_valid mkTS 42 3 (by norm_num)

/-! ## Claim C2: amended bound theorem -/

theorem getD_mem_of_lt {α : Type} (l : List α) (n : ℕ) (d : α) (h : n < l.length) :
    l.getD n d ∈ l := by
  rw [List.getD_eq_getElem l d h]
  exact List.getElem_mem h

theorem varQ_nonneg (l : List ℚ) : 0 ≤ varQ l := by
  unfold varQ
  apply div_nonneg
  · apply List.sum_nonneg
    intro x hx
    rcases List.mem_map.mp hx with ⟨a, _, rfl⟩
    positivity
  · positivity

theorem ffillFrom_head_somes : ∀ (l : Col) (prev : F), prev.isSome = true →
    (ffillFrom prev l).length = l.length ∧ ∀ v ∈ ffillFrom prev l, v.isSome = true := by
  intro l
  induction l with
  | nil =>
    intro prev _
    exact ⟨rfl, by intro v hv; simp [ffillFrom] at hv⟩
  | cons x rest ih =>
    intro prev h
    cases prev with
    | none => simp at h
    | some p =>
      cases x with
      | none =>
        simp only [ffillFrom]
        obtain ⟨hl, hs⟩ := ih (some p) rfl
        refine ⟨by simp [hl], ?_⟩
        intro v hv
        rcases List.mem_cons.mp hv with rfl | hv
        · rfl
        · exact hs v hv
      | some q =>
        simp only [ffillFrom]
        obtain ⟨hl, hs⟩ := ih (some q) rfl
        refine ⟨by simp [hl], ?_⟩
        intro v hv
        rcases List.mem_cons.mp hv with rfl | hv
        · rfl
        · exact hs v hv

theorem ffill_clean (col : Col) (h : (col.headD (some 0)).isSome = true) :
    (ffill col).length = col.length ∧ ∀ v ∈ ffill col, v.isSome = true := by
  cases col with
  | nil => exact ⟨rfl, by intro v hv; simp [ffill] at hv⟩
  | cons x rest =>
    simp only [List.headD_cons] at h
    simp only [ffill]
    obtain ⟨hl, hs⟩ := ffillFrom_head_somes rest x h
    refine ⟨by simp [hl], ?_⟩
    intro v hv
    rcases List.mem_cons.mp hv with rfl | hv
    · exact h
    · exact hs v hv

theorem smoothFrom_somes (α : ℚ) : ∀ (l : Col) (prev : F), prev.isSome = true →
    (∀ v ∈ l, v.isSome = true) →
    (smoothFrom α prev l).length = l.length ∧ ∀ v ∈ smoothFrom α prev l, v.isSome = true := by
  intro l
  induction l with
  | nil =>
    intro prev _ _
    exact ⟨rfl, by intro v hv; simp [smoothFrom] at hv⟩
  | cons x rest ih =>
    intro prev hp hl
    have hx := hl x (by simp)
    cases x with
    | none => simp at hx
    | some q =>
      cases prev with
      | none => simp at hp
      | some p =>
        simp only [smoothFrom]
        obtain ⟨h1, h2⟩ := ih (some (α * q + (1 - α) * p)) rfl
          (fun v hv => hl v (by simp [hv]))
        refine ⟨by simp [h1], ?_⟩
        intro v hv
        rcases List.mem_cons.mp hv with rfl | hv
        · rfl
        · exact h2 v hv

theorem expSmooth_clean (O : Oracle) (hO : O.Valid) (α : ℚ) (s : List F)
    (hs : ∀ v ∈ s, v.isSome = true) :
    (expSmooth O α s).1.length = s.length ∧ (∀ v ∈ (expSmooth O α s).1, v.isSome = true) ∧
      (s ≠ [] → ∃ q, (expSmooth O α s).2 = some q ∧ 0 ≤ q) := by
  cases s with
  | nil =>
    refine ⟨rfl, by intro v hv; simp [expSmooth] at hv, fun h => absurd rfl h⟩
  | cons x s1 =>
    cases s1 with
    | nil =>
      have hx := hs x (by simp)
      cases x with
      | none => simp at hx
      | some q =>
        refine ⟨rfl, ?_, ?_⟩
        · intro v hv
          rcases List.mem_cons.mp hv with rfl | hv
          · rfl
          · simp at hv
        · intro _
          refine ⟨O.sq (varQ [q]) + eps, ?_, ?_⟩
          · simp [expSmooth, stdPlainF, fAdd, nanVals]
          · have h1 := hO.1 (varQ [q]) (varQ_nonneg _)
            have h2 := eps_pos
            linarith
    | cons y rest =>
      have hx := hs x (by simp)
      cases x with
      | none => simp at hx
      | some q =>
        obtain ⟨hl, hsm⟩ := smoothFrom_somes α (y :: rest) (some q) rfl
          (fun v hv => hs v (by simp [hv]))
        simp only [expSmooth]
        refine ⟨by simp [hl], ?_, ?_⟩
        · intro v hv
          rcases List.mem_cons.mp hv with rfl | hv
          · rfl
          · exact hsm v hv
        · intro _
          by_cases hres :
              (nanVals (List.zipWith fSub (some q :: y :: rest)
                (some q :: smoothFrom α (some q) (y :: rest)))).isEmpty
          · exact ⟨1, by rw [if_pos hres], by norm_num⟩
          · refine ⟨O.sq (varQ (nanVals (List.zipWith fSub (some q :: y :: rest)
              (some q :: smoothFrom α (some q) (y :: rest))))), by rw [if_neg hres], ?_⟩
            exact hO.1 _ (varQ_nonneg _)

theorem tsColScores_bound (ncols : ℕ) (hn : 1 ≤ ncols) (col forecast : Col) (sq : ℚ)
    (hs : 0 ≤ sq) (hcol : ∀ v ∈ col, v.isSome = true)
    (hf : ∀ v ∈ forecast, v.isSome = true) :
    ∀ s ∈ tsColScores ncols col forecast (some sq),
      ∃ q, s = some q ∧ 0 ≤ q ∧ q ≤ 1 / (ncols : ℚ) := by
  intro s hmem
  unfold tsColScores at hmem
  rcases mem_zipWith hmem with ⟨x, hx, f, hff, rfl⟩
  have hxs := hcol x hx
  have hfs := hf f hff
  cases x with
  | none => simp at hxs
  | some qx =>
    cases f with
    | none => simp at hfs
    | some qf =>
      have hden : 0 < sq + eps := by have := eps_pos; linarith
      have hnc : (0 : ℚ) < (ncols : ℚ) := by exact_mod_cast hn
      have hz : 0 ≤ |qx - qf| / (sq + eps) / 5 :=
        div_nonneg (div_nonneg (abs_nonneg _) hden.le) (by norm_num)
      refine ⟨min (|qx - qf| / (sq + eps) / 5) 1 / (ncols : ℚ),
        by simp [fSub, absF, fAdd, fDiv, fMinC], ?_, ?_⟩
      · exact div_nonneg (le_min hz (by norm_num)) hnc.le
      · exact div_le_div_of_nonneg_right (min_le_right _ _) hnc.le

theorem foldl_zipWith_fAdd_bound {γ : Type} (g : γ → List F) (step : ℚ) :
    ∀ (cols : List γ) (acc : List F) (lo hi : ℚ),
      (∀ a ∈ acc, ∃ q, a = some q ∧ lo ≤ q ∧ q ≤ hi) →
      (∀ c ∈ cols, ∀ s ∈ g c, ∃ q, s = some q ∧ 0 ≤ q ∧ q ≤ step) →
      ∀ x ∈ cols.foldl (fun acc c => List.zipWith fAdd acc (g c)) acc,
        ∃ q, x = some q ∧ lo ≤ q ∧ q ≤ hi + (cols.length : ℚ) * step := by
  intro cols
  induction cols with
  | nil =>
    intro acc lo hi hacc _ x hx
    simpa using hacc x hx
  | cons c cols ih =>
    intro acc lo hi hacc hg x hx
    simp only [List.foldl_cons] at hx
    have hacc' : ∀ a ∈ List.zipWith fAdd acc (g c),
        ∃ q, a = some q ∧ lo ≤ q ∧ q ≤ hi + step := by
      intro a ha
      rcases mem_zipWith ha with ⟨u, hu, v, hv, rfl⟩
      rcases hacc u hu with ⟨qu, rfl, h1, h2⟩
      rcases hg c (by simp) v hv with ⟨qv, rfl, h3, h4⟩
      exact ⟨qu + qv, by simp [fAdd], by linarith, by linarith⟩
    have hg' : ∀ c' ∈ cols, ∀ s ∈ g c', ∃ q, s = some q ∧ 0 ≤ q ∧ q ≤ step :=
      fun c' hc' => hg c' (by simp [hc'])
    have hres := ih (List.zipWith fAdd acc (g c)) lo (hi + step) hacc' hg' x hx
    rcases hres with ⟨q, rfl, h1, h2⟩
    refine ⟨q, rfl, h1, h2.trans_eq ?_⟩
    simp only [List.length_cons]
    push_cast
    ring

theorem tsPredict_bounds (O : Oracle) (hO : O.Valid) (st0 : TSState) (nrows : ℕ)
    (X0 X : List Col) (hfit : TSFitOK nrows X0) (hX : CleanCols nrows X)
    (hlen : X.length = X0.length) :
    ∀ s ∈ tsPredict (tsFit O st0 X0) nrows X, ∃ q, s = some q ∧ 0 ≤ q ∧ q ≤ 1 := by
  cases hXnil : X with
  | nil =>
    intro s hs
    unfold tsPredict at hs
    simp only [hXnil, List.enum_nil, List.foldl_nil] at hs
    have h0 := List.eq_of_mem_replicate hs
    subst h0
    exact ⟨0, rfl, le_refl 0, by norm_num⟩
  | cons c0 crest =>
    have hn : 1 ≤ X.length := by rw [hXnil]; simp
    rw [← hXnil]
    intro s hs
    unfold tsPredict at hs
    have hfitlen : ((X0.map (fun col => expSmooth O st0.alpha (ffill col)))).length
        = X0.length := by simp
    have hpair : ∀ jc ∈ X.enum,
        ∀ s' ∈ tsColScores X.length jc.2 ((tsFit O st0 X0).forecasts.getD jc.1 jc.2)
          ((tsFit O st0 X0).sigmas.getD jc.1 (some 1)),
        ∃ q, s' = some q ∧ 0 ≤ q ∧ q ≤ 1 / (X.length : ℚ) := by
      intro jc hjc
      obtain ⟨_, hjlt, hjget⟩ := List.mem_enumFrom hjc
      have hjX : jc.1 < X.length := by simpa using hjlt
      have hcolX : jc.2 ∈ X := by
        rw [hjget]
        exact List.getElem_mem (by simpa using hjX)
      obtain ⟨hclen, hcsome⟩ := hX jc.2 hcolX
      -- the fitted forecast and sigma of column jc.1
      have hjX0 : jc.1 < X0.length := by rw [← hlen]; exact hjX
      have hcol0 : X0.getD jc.1 [] ∈ X0 := getD_mem_of_lt X0 jc.1 [] hjX0
      obtain ⟨hl0, hh0⟩ := hfit (X0.getD jc.1 []) hcol0
      obtain ⟨hffl, hffs⟩ := ffill_clean (X0.getD jc.1 []) hh0
      obtain ⟨hfl, hfs, hsig⟩ :=
        expSmooth_clean O hO st0.alpha (ffill (X0.getD jc.1 [])) hffs
      have hforecast : (tsFit O st0 X0).forecasts.getD jc.1 jc.2
          = (expSmooth O st0.alpha (ffill (X0.getD jc.1 []))).1 := by
        unfold tsFit
        rw [List.getD_append _ _ _ _ (by simpa using hjX0)]
        rw [getD_map Prod.fst (List.map (fun col => expSmooth O st0.alpha (ffill col)) X0)
          jc.1 (([], none) : Col × F) jc.2 (by simpa using hjX0)]
        rw [getD_map (fun col => expSmooth O st0.alpha (ffill col)) X0 jc.1 []
          (([], none) : Col × F) hjX0]
      have hsigma : (tsFit O st0 X0).sigmas.getD jc.1 (some 1)
          = (expSmooth O st0.alpha (ffill (X0.getD jc.1 []))).2 := by
        unfold tsFit
        rw [List.getD_append _ _ _ _ (by simpa using hjX0)]
        rw [getD_map Prod.snd (List.map (fun col => expSmooth O st0.alpha (ffill col)) X0)
          jc.1 (([], none) : Col × F) (some 1) (by simpa using hjX0)]
        rw [getD_map (fun col => expSmooth O st0.alpha (ffill col)) X0 jc.1 []
          (([], none) : Col × F) hjX0]
      cases hc2 : jc.2 with
      | nil =>
        intro s' hs'
        unfold tsColScores at hs'
        simp at hs'
      | cons v0 vrest =>
        have hne : ffill (X0.getD jc.1 []) ≠ [] := by
          intro hcontra
          have : (ffill (X0.getD jc.1 [])).length = 0 := by rw [hcontra]; rfl
          rw [hffl, hl0] at this
          rw [← hclen, hc2] at this
          simp at this
        obtain ⟨sq, hsq, hsqnn⟩ := hsig hne
        rw [← hc2]
        rw [hforecast, hsigma, hsq]
        exact tsColScores_bound X.length hn jc.2 _ sq hsqnn hcsome hfs
    have hb := foldl_zipWith_fAdd_bound
      (fun jc : ℕ × Col => tsColScores X.length jc.2
        ((tsFit O st0 X0).forecasts.getD jc.1 jc.2)
        ((tsFit O st0 X0).sigmas.getD jc.1 (some 1)))
      (1 / (X.length : ℚ)) X.enum (List.replicate nrows (some 0)) 0 0
      (by
        intro a ha
        have h0 := List.eq_of_mem_replicate ha
        subst h0
        exact ⟨0, rfl, le_refl 0, le_refl 0⟩)
      hpair s hs
    rcases hb with ⟨q, rfl, h1, h2⟩
    refine ⟨q, rfl, h1, ?_⟩
    have hnc : (0 : ℚ) < (X.length : ℚ) := by exact_mod_cast hn
    have henl : (X.enum.length : ℚ) = (X.length : ℚ) := by simp
    rw [zero_add, henl] at h2
    calc q ≤ (X.length : ℚ) * (1 / (X.length : ℚ)) := h2
    _ = 1 := by field_simp

theorem percentile95_nonneg (l : List ℚ) (hl : ∀ x ∈ l, 0 ≤ x) : 0 ≤ percentile95 l := by
  simp only [percentile95]
  split
  · norm_num
  · rename_i hn
    have hn1 : 1 ≤ l.length := Nat.one_le_iff_ne_zero.mpr hn
    have hq1 : (1 : ℚ) ≤ (l.length : ℚ) := by exact_mod_cast hn1
    have hperm := List.mergeSort_perm l (fun a b => decide (a ≤ b))
    have hmemS : ∀ x ∈ l.mergeSort (fun a b => decide (a ≤ b)), 0 ≤ x := fun x hx =>
      hl x (hperm.mem_iff.mp hx)
    have hslen : (l.mergeSort (fun a b => decide (a ≤ b))).length = l.length :=
      List.length_mergeSort l
    set h : ℚ := 19 * ((l.length : ℚ) - 1) / 20 with hdef
    have hh0 : 0 ≤ h := by rw [hdef]; apply div_nonneg (by linarith) (by norm_num)
    have hfl : (0 : ℤ) ≤ Int.floor h := Int.floor_nonneg.mpr hh0
    have hlocast : (((Int.floor h).toNat : ℕ) : ℚ) = ((Int.floor h : ℤ) : ℚ) := by
      exact_mod_cast congrArg (fun z : ℤ => (z : ℚ)) (Int.toNat_of_nonneg hfl)
    have hlole : (((Int.floor h).toNat : ℕ) : ℚ) ≤ h := by
      rw [hlocast]; exact Int.floor_le h
    have hlolt1 : h < (((Int.floor h).toNat : ℕ) : ℚ) + 1 := by
      rw [hlocast]; exact_mod_cast Int.lt_floor_add_one h
    have hlon : ((Int.floor h).toNat : ℕ) < l.length := by
      have hle : h ≤ (l.length : ℚ) - 1 := by
        rw [hdef]
        rw [div_le_iff₀ (by norm_num : (0:ℚ) < 20)]
        nlinarith
      have : (((Int.floor h).toNat : ℕ) : ℚ) < (l.length : ℚ) := by linarith
      exact_mod_cast this
    have hx0 : 0 ≤ (l.mergeSort (fun a b => decide (a ≤ b))).getD ((Int.floor h).toNat) 0 := by
      apply hmemS
      exact getD_mem_of_lt _ _ _ (by rw [hslen]; exact hlon)
    have hx1 : 0 ≤ (l.mergeSort (fun a b => decide (a ≤ b))).getD ((Int.floor h).toNat + 1)
        ((l.mergeSort (fun a b => decide (a ≤ b))).getD ((Int.floor h).toNat) 0) := by
      by_cases hc : (Int.floor h).toNat + 1 < (l.mergeSort (fun a b => decide (a ≤ b))).length
      · exact hmemS _ (getD_mem_of_lt _ _ _ hc)
      · rw [List.getD_eq_default _ _ (by omega)]
        exact hx0
    have hf0 : 0 ≤ h - (((Int.floor h).toNat : ℕ) : ℚ) := by linarith
    have hf1 : h - (((Int.floor h).toNat : ℕ) : ℚ) ≤ 1 := by linarith
    nlinarith [mul_nonneg hf0 hx1, mul_nonneg (by linarith : (0:ℚ) ≤ 1 - (h - (((Int.floor h).toNat : ℕ) : ℚ))) hx0]

theorem foldl_zipWith_fAdd_somes {γ : Type} (g : γ → List F) :
    ∀ (cols : List γ) (acc : List F), (∀ a ∈ acc, a.isSome = true) →
      (∀ c ∈ cols, ∀ s ∈ g c, s.isSome = true) →
      ∀ x ∈ cols.foldl (fun acc c => List.zipWith fAdd acc (g c)) acc, x.isSome = true := by
  intro cols
  induction cols with
  | nil =>
    intro acc hacc _ x hx
    exact hacc x hx
  | cons c cols ih =>
    intro acc hacc hg x hx
    simp only [List.foldl_cons] at hx
    refine ih (List.zipWith fAdd acc (g c)) ?_ (fun c' hc' => hg c' (by simp [hc'])) x hx
    intro a ha
    rcases mem_zipWith ha with ⟨u, hu, v, hv, rfl⟩
    have h1 := hacc u hu
    have h2 := hg c (by simp) v hv
    cases u <;> cases v <;> simp_all [fAdd]

theorem gaNormalize_clean (O : Oracle) (nrows : ℕ) (X : List Col) (hX : CleanCols nrows X) :
    ∀ col' ∈ gaNormalize O X, col'.length = nrows ∧ ∀ v ∈ col', v.isSome = true := by
  intro col' hcol'
  unfold gaNormalize at hcol'
  rcases List.mem_map.mp hcol' with ⟨col, hcol, rfl⟩
  obtain ⟨hlen, hsome⟩ := hX col hcol
  refine ⟨by simp [hlen], ?_⟩
  intro v hv
  rcases List.mem_map.mp hv with ⟨x, hx, rfl⟩
  have hxs := hsome x hx
  have hempt : col.isEmpty = false := by
    cases col with
    | nil => simp at hx
    | cons a rest => rfl
  have hany : col.any (fun v => v.isNone) = false := by
    rw [List.any_eq_false]
    intro u hu
    have h2 := hsome u hu
    cases u with
    | none => simp at h2
    | some w => simp
  cases x with
  | none => simp at hxs
  | some qx => simp [fDiv, fSub, fAdd, meanF, stdPlainF, hempt, hany]

theorem gaScores_somes (w : List ℚ) (Z : List Col) (nrows : ℕ)
    (hZ : ∀ col ∈ Z, ∀ v ∈ col, v.isSome = true) :
    ∀ x ∈ gaScores w Z nrows, x.isSome = true := by
  unfold gaScores
  apply foldl_zipWith_fAdd_somes
  · intro a ha
    have h0 := List.eq_of_mem_replicate ha
    subst h0
    rfl
  · intro cw hcw s hs
    rcases List.mem_map.mp hs with ⟨v, hv, rfl⟩
    have hv' := hZ cw.1 (List.of_mem_zip hcw).1 v hv
    cases v <;> simp_all

theorem gaPredict_bounds (O : Oracle) (hO : O.Valid) (st : GAState) (nrows : ℕ)
    (X : List Col) (hX : CleanCols nrows X)
    (harity : ∀ ind, st.best = some ind → ind.weights.length = X.length) :
    ∀ s ∈ gaPredict O st nrows X, ∃ q, s = some q ∧ 0 ≤ q ∧ q ≤ 1 := by
  unfold gaPredict
  cases hb : st.best with
  | none =>
    intro s hs
    have h0 := List.eq_of_mem_replicate hs
    subst h0
    exact ⟨0, rfl, le_refl 0, by norm_num⟩
  | some ind =>
    intro s hs
    have hZ := gaNormalize_clean O nrows X hX
    have hraws : ∀ x ∈ gaScores ind.weights (gaNormalize O X) nrows, x.isSome = true :=
      gaScores_somes _ _ _ (fun col hcol => (hZ col hcol).2)
    rcases List.mem_map.mp hs with ⟨v, hv, rfl⟩
    set raw := (gaScores ind.weights (gaNormalize O X) nrows).map absF with hrawdef
    have hrs : ∀ x ∈ raw, ∃ q, x = some q ∧ 0 ≤ q := by
      intro x hx
      rw [hrawdef] at hx
      rcases List.mem_map.mp hx with ⟨v', hv', rfl⟩
      have hvs := hraws v' hv'
      cases v' with
      | none => simp at hvs
      | some qv => exact ⟨|qv|, rfl, abs_nonneg qv⟩
    rcases hrs v hv with ⟨qv, hveq, hqv⟩
    have hanyf : raw.any (fun u => u.isNone) = false := by
      rw [List.any_eq_false]
      intro u hu
      rcases hrs u hu with ⟨q, rfl, _⟩
      simp
    have hemptf : raw.isEmpty = false := by
      cases hr : raw with
      | nil =>
        rw [hr] at hv
        simp at hv
      | cons a rest => rfl
    clear hb
    have hperc : percentileF raw = some (percentile95 (List.filterMap id raw)) := by
      unfold percentileF
      rw [hanyf, hemptf]
      simp
    have hpn : 0 ≤ percentile95 (List.filterMap id raw) := by
      apply percentile95_nonneg
      intro x hx
      rcases List.mem_filterMap.mp hx with ⟨a, ha, haeq⟩
      rcases hrs a ha with ⟨q, rfl, hq⟩
      simp only [id] at haeq
      cases haeq
      exact hq
    rw [hperc, hveq]
    have hden : 0 < percentile95 (List.filterMap id raw) + eps := by
      have := eps_pos
      linarith
    refine ⟨min (qv / (percentile95 (List.filterMap id raw) + eps)) 1,
      by simp [fDiv, fAdd, fMinC], ?_, min_le_right _ _⟩
    exact le_min (div_nonneg hqv hden.le) (by norm_num)

theorem fuzzyPredict_w_eval :
    fuzzyPredict oracleC (mkFuzzy none) 1 [[some 5]] = [1 / 100000001] := by
  have h1 : nanVals [some 5] = [5] := by simp [nanVals]
  have h2 : varQ [5] = 0 := by norm_num [varQ, meanQ]
  have h3 : memNormal oracleC defaultFuzzySets 0 = 100000000 / 100000001 := by
    norm_num [memNormal, defaultFuzzySets, memMF, triangularMembership, eps, List.find?]
  have h4 : fuzzyNormalize oracleC [some 5] = [some 0] := by
    simp [fuzzyNormalize, h1, h2]
  have hsets : (mkFuzzy none).fuzzySets = defaultFuzzySets := rfl
  simp [fuzzyPredict, hsets, fuzzyColScores, h4, h3, List.replicate]
  norm_num

/-- C2 (amended): for every fitted scorer, `predict` scores lie in `[0, 1]`
when the input matrix is NaN-free and shape-compatible — for the fuzzy scorer
on any rectangular NaN-free matrix, for the forecaster when additionally the
fit matrix has the same shape with columns starting on a non-NaN value (its
frozen forecast is reused positionally), and for the evolutionary scorer when
the evolved weight vector's arity matches the column count.  The original
claim's inclusion of rows with missing values is refuted by
the fuzzy counterexample (score `1.5`) and by NaN propagation in the other
two scorers. -/
theorem c2_predict_scores_in_unit_interval (O : Oracle) (hO : O.Valid) :
    (∀ (st : FuzzyState) (nrows : ℕ) (X : List Col), CleanCols nrows X →
        ∀ s ∈ fuzzyPredict O st nrows X, 0 ≤ s ∧ s ≤ 1) ∧
      (∀ (st0 : TSState) (nrows : ℕ) (X0 X : List Col), TSFitOK nrows X0 →
          CleanCols nrows X → X.length = X0.length →
          ∀ s ∈ tsPredict (tsFit O st0 X0) nrows X, ∃ q, s = some q ∧ 0 ≤ q ∧ q ≤ 1) ∧
      ∀ (st : GAState) (nrows : ℕ) (X : List Col), CleanCols nrows X →
        (∀ ind, st.best = some ind → ind.weights.length = X.length) →
        ∀ s ∈ gaPredict O st nrows X, ∃ q, s = some q ∧ 0 ≤ q ∧ q ≤ 1 :=
  ⟨fun st nrows X hX => fuzzyPredict_bounds O hO st nrows X hX,
    fun st0 nrows X0 X h1 h2 h3 => tsPredict_bounds O hO st0 nrows X0 X h1 h2 h3,
    fun st nrows X hX hw => gaPredict_bounds O hO st nrows X hX hw⟩

/-- Witness for `c2_predict_scores_in_unit_interval`: concrete one- and
two-row NaN-free matrices for the three scorers under the concrete oracle. -/
theorem c2_predict_scores_in_unit_interval_w :
    (0 ≤ (fuzzyPredict oracleC (mkFuzzy none) 1 [[some 5]]).getD 0 0 ∧
        (fuzzyPredict oracleC (mkFuzzy none) 1 [[some 5]]).getD 0 0 ≤ 1) ∧
      (∃ q, (tsPredict (tsFit oracleC mkTS [List.replicate 2 (some 5)]) 2
            [List.replicate 2 (some 5)]).getD 0 none = some q ∧ 0 ≤ q ∧ q ≤ 1) ∧
      ∃ q, (gaPredict oracleC (mkGA 20 10) 1 [[some 5]]).getD 0 none = some q ∧
        0 ≤ q ∧ q ≤ 1 := by
  refine ⟨?_, ?_, ?_⟩
  · exact (c2_predict_scores_in_unit_interval oracleC oracleC_valid).1 (mkFuzzy none) 1
      [[some 5]] (by decide) _ (by rw [fuzzyPredict_w_eval]; simp)
  · refine (c2_predict_scores_in_unit_interval oracleC oracleC_valid).2.1 mkTS 2
      [List.replicate 2 (some 5)] [List.replicate 2 (some 5)] (by decide) (by decide) rfl _ ?_
    have h := (tsConstEval oracleC oracleC_valid mkTS 5 0).2
    norm_num at h
    rw [h]
    simp [List.replicate]
  · refine (c2_predict_scores_in_unit_interval oracleC oracleC_valid).2.2 (mkGA 20 10) 1
      [[some 5]] (by decide) (fun ind hind => by simp [mkGA] at hind) _ ?_
    have h : gaPredict oracleC (mkGA 20 10) 1 [[some 5]] = [some 0] := rfl
    rw [h]
    simp

/-! ## Claim C4 -/

theorem getD_zipWith_fAdd (as bs : List F) (i : ℕ) (ha : i < as.length) (hb : i < bs.length) :
    (List.zipWith fAdd as bs).getD i none = fAdd (as.getD i none) (bs.getD i none) :=
  getD_zipWith fAdd as bs i none none none ha hb

theorem getD_map_zero {p : Type} (g : p → ℚ) (hg : ∀ r, g r = 0) :
    ∀ (rows : List p) (i : ℕ), (rows.map g).getD i 0 = 0 := by
  intro rows
  induction rows with
  | nil => intro i; simp [List.getD]
  | cons r rest ih =>
    intro i
    cases i with
    | zero => simp [List.getD, hg r]
    | succ j => simpa [List.getD_cons_succ] using ih j

/-- C4: each entry of the ensemble's predict vector equals — exactly, in the
exact arithmetic of the embedding, hence a fortiori within `1e-9` — the sum
over the four techniques of the configured weight times that technique's own
predict score for the same row.  When the input is a plain array (no
`dtypes`), the expert term is skipped by `predict`; the identity still holds
because an ensemble-constructed expert system has no rules and scores every
row 0. -/
theorem c4_ensemble_weighted_sum {p k : Type} (O : Oracle) (st : EnsembleState p k)
    (hasD : Bool) (nrows : ℕ) (X : List Col) (rows : List p) (i : ℕ) (hi : i < nrows)
    (hrules : hasD = true ∨ st.expert.rules = [])
    (hf : (fuzzyPredict O st.fuzzy nrows X).length = nrows)
    (he : (expertPredict st.expert rows).length = nrows)
    (ht : (tsPredict st.timeseries nrows X).length = nrows)
    (hg : (gaPredict O st.genetic nrows X).length = nrows) :
    (ensPredict O st hasD nrows X rows).getD i none
      = fAdd (fAdd (some (st.weights.fuzzy * (fuzzyPredict O st.fuzzy nrows X).getD i 0
            + st.weights.expert * (expertPredict st.expert rows).getD i 0))
          (((tsPredict st.timeseries nrows X).getD i none).map
            (fun x => st.weights.timeseries * x)))
        (((gaPredict O st.genetic nrows X).getD i none).map
          (fun x => st.weights.genetic * x)) := by
  unfold ensPredict
  have hs0 : (List.replicate nrows (some (0:ℚ)) : List F).getD i none = some 0 :=
    getD_replicate (some 0) none nrows i hi
  have hfm : ((fuzzyPredict O st.fuzzy nrows X).map
      (fun q => some (st.weights.fuzzy * q))).getD i none
      = some (st.weights.fuzzy * (fuzzyPredict O st.fuzzy nrows X).getD i 0) :=
    getD_map _ _ i 0 none (by rw [hf]; exact hi)
  have hem : ((expertPredict st.expert rows).map
      (fun q => some (st.weights.expert * q))).getD i none
      = some (st.weights.expert * (expertPredict st.expert rows).getD i 0) :=
    getD_map _ _ i 0 none (by rw [he]; exact hi)
  have htm : ((tsPredict st.timeseries nrows X).map
      (fun v => v.map (fun x => st.weights.timeseries * x))).getD i none
      = ((tsPredict st.timeseries nrows X).getD i none).map
        (fun x => st.weights.timeseries * x) :=
    getD_map (fun v : F => v.map (fun x => st.weights.timeseries * x))
      (tsPredict st.timeseries nrows X) i none none (by rw [ht]; exact hi)
  have hgm : ((gaPredict O st.genetic nrows X).map
      (fun v => v.map (fun x => st.weights.genetic * x))).getD i none
      = ((gaPredict O st.genetic nrows X).getD i none).map
        (fun x => st.weights.genetic * x) :=
    getD_map (fun v : F => v.map (fun x => st.weights.genetic * x))
      (gaPredict O st.genetic nrows X) i none none (by rw [hg]; exact hi)
  cases hasD with
  | true =>
    show (List.zipWith fAdd
        (List.zipWith fAdd
          (List.zipWith fAdd
            (List.zipWith fAdd (List.replicate nrows (some 0))
              ((fuzzyPredict O st.fuzzy nrows X).map (fun q => some (st.weights.fuzzy * q))))
            ((expertPredict st.expert rows).map (fun q => some (st.weights.expert * q))))
          ((tsPredict st.timeseries nrows X).map
            (fun v => v.map (fun x => st.weights.timeseries * x))))
        ((gaPredict O st.genetic nrows X).map
          (fun v => v.map (fun x => st.weights.genetic * x)))).getD i none = _
    rw [getD_zipWith_fAdd _ _ i (by simp [hf, he, ht]; omega) (by simp [hg]; omega)]
    rw [getD_zipWith_fAdd _ _ i (by simp [hf, he]; omega) (by simp [ht]; omega)]
    rw [getD_zipWith_fAdd _ _ i (by simp [hf]; omega) (by simp [he]; omega)]
    rw [getD_zipWith_fAdd _ _ i (by simp; omega) (by simp [hf]; omega)]
    rw [hs0, hfm, hem, htm, hgm]
    cases (tsPredict st.timeseries nrows X).getD i none with
    | none => cases (gaPredict O st.genetic nrows X).getD i none <;> simp [fAdd]
    | some qt =>
      cases (gaPredict O st.genetic nrows X).getD i none with
      | none => simp [fAdd]
      | some qg =>
        simp [fAdd]
  | false =>
    rcases hrules with hcontra | hrules
    · exact absurd hcontra (by simp)
    · show (List.zipWith fAdd
          (List.zipWith fAdd
            (List.zipWith fAdd (List.replicate nrows (some 0))
              ((fuzzyPredict O st.fuzzy nrows X).map (fun q => some (st.weights.fuzzy * q))))
            ((tsPredict st.timeseries nrows X).map
              (fun v => v.map (fun x => st.weights.timeseries * x))))
          ((gaPredict O st.genetic nrows X).map
            (fun v => v.map (fun x => st.weights.genetic * x)))).getD i none = _
      rw [getD_zipWith_fAdd _ _ i (by simp [hf, ht]; omega) (by simp [hg]; omega)]
      rw [getD_zipWith_fAdd _ _ i (by simp [hf]; omega) (by simp [ht]; omega)]
      rw [getD_zipWith_fAdd _ _ i (by simp; omega) (by simp [hf]; omega)]
      rw [hs0, hfm, htm, hgm]
      have hex : (expertPredict st.expert rows).getD i 0 = 0 := by
        unfold expertPredict
        rw [hrules]
        exact getD_map_zero _ (fun r => by unfold expertRowScore; simp) rows i
      rw [hex]
      cases (tsPredict st.timeseries nrows X).getD i none with
      | none => cases (gaPredict O st.genetic nrows X).getD i none <;> simp [fAdd]
      | some qt =>
        cases (gaPredict O st.genetic nrows X).getD i none with
        | none => simp [fAdd]
        | some qg =>
          simp [fAdd]

/-- Witness for `c4_ensemble_weighted_sum`: a concrete one-row ensemble state
on the array (no-dtypes) path. -/
theorem c4_ensemble_weighted_sum_w :
    (ensPredict oracleC (⟨mkFuzzy none, ⟨[], none⟩, ⟨3 / 10, 5, [[some 0]], [some 0]⟩,
          mkGA 15 8, defaultEnsWeights⟩ : EnsembleState Unit Unit) false 1
        [[some 5]] [()]).getD 0 none
      = fAdd (fAdd (some (defaultEnsWeights.fuzzy
              * (fuzzyPredict oracleC (mkFuzzy none) 1 [[some 5]]).getD 0 0
            + defaultEnsWeights.expert
              * (expertPredict (⟨[], none⟩ : ExpertState Unit Unit) [()]).getD 0 0))
          (((tsPredict ⟨3 / 10, 5, [[some 0]], [some 0]⟩ 1 [[some 5]]).getD 0 none).map
            (fun x => defaultEnsWeights.timeseries * x)))
        (((gaPredict oracleC (mkGA 15 8) 1 [[some 5]]).getD 0 none).map
          (fun x => defaultEnsWeights.genetic * x)) :=
  c4_ensemble_weighted_sum oracleC
    (⟨mkFuzzy none, ⟨[], none⟩, ⟨3 / 10, 5, [[some 0]], [some 0]⟩, mkGA 15 8,
      defaultEnsWeights⟩ : EnsembleState Unit Unit) false 1 [[some 5]] [()] 0 (by norm_num)
    (Or.inr rfl) (by rw [fuzzyPredict_w_eval]; rfl) rfl rfl rfl
theorem ChromOK_n_pos {n : ℕ} {ind : Ind} (h : ChromOK n ind) : 0 < n := by
  rcases h with ⟨hlen, _, hsum, _⟩
  by_contra hn
  push_neg at hn
  interval_cases n
  have hnil : ind.weights = [] := List.eq_nil_of_length_eq_zero hlen
  rw [hnil] at hsum
  simp at hsum

theorem ChromOK_spec {n : ℕ} {ind : Ind} (h : ChromOK n ind) : ChromSpecOK ind := by
  rcases h with ⟨hlen, hpos, hsum, ht1, ht2⟩
  exact ⟨by rw [hsum]; norm_num, fun w hw => (hpos w hw).le, ht1, ht2⟩

theorem sum_map_div (w : List ℚ) (S : ℚ) : (w.map (fun x => x / S)).sum = w.sum / S := by
  induction w with
  | nil => simp
  | cons a rest ih => simp [ih, add_div]

theorem renorm_sum (w : List ℚ) (h : w.sum ≠ 0) : (renorm w).sum = 1 := by
  unfold renorm
  rw [sum_map_div, div_self h]

theorem renorm_pos (w : List ℚ) (hpos : ∀ x ∈ w, 0 < x) (hs : 0 < w.sum) :
    ∀ x ∈ renorm w, 0 < x := by
  intro x hx
  unfold renorm at hx
  rcases List.mem_map.mp hx with ⟨a, ha, rfl⟩
  exact div_pos (hpos a ha) hs

theorem renorm_length (w : List ℚ) : (renorm w).length = w.length := by
  simp [renorm]

theorem clip_bounds (x lo hi : ℚ) (h : lo ≤ hi) : lo ≤ clip x lo hi ∧ clip x lo hi ≤ hi :=
  ⟨le_min (le_max_right x lo) h, min_le_right _ _⟩

theorem createInd_ok (n : ℕ) (d : List ℚ × ℚ) (h : DirOK n d) : ChromOK n (createInd d) := by
  obtain ⟨h1, h2, h3, h4, h5⟩ := h
  exact ⟨h1, h2, h3, by unfold createInd; linarith, by unfold createInd; linarith⟩

theorem crossover_ok (n : ℕ) (flip : ℕ → Bool) (p1 p2 : Ind)
    (h1 : ChromOK n p1) (h2 : ChromOK n p2) : ChromOK n (crossover flip p1 p2) := by
  have hn := ChromOK_n_pos h1
  obtain ⟨hl1, hp1, hs1, ht1a, ht1b⟩ := h1
  obtain ⟨hl2, hp2, hs2, ht2a, ht2b⟩ := h2
  have hwlen : ((List.range p1.weights.length).map
      (fun i => if flip i then p1.weights.getD i 0 else p2.weights.getD i 0)).length = n := by
    simp [hl1]
  have hwpos : ∀ x ∈ (List.range p1.weights.length).map
      (fun i => if flip i then p1.weights.getD i 0 else p2.weights.getD i 0), 0 < x := by
    intro x hx
    rcases List.mem_map.mp hx with ⟨i, hi, rfl⟩
    have hi1 : i < p1.weights.length := List.mem_range.mp hi
    by_cases hf : flip i
    · rw [if_pos hf]
      exact hp1 _ (getD_mem_of_lt _ _ _ hi1)
    · rw [if_neg hf]
      exact hp2 _ (getD_mem_of_lt _ _ _ (by rw [hl2, ← hl1]; exact hi1))
  have hwne : (List.range p1.weights.length).map
      (fun i => if flip i then p1.weights.getD i 0 else p2.weights.getD i 0) ≠ [] := by
    intro hc
    have := congrArg List.length hc
    rw [hwlen] at this
    simp at this
    omega
  have hwsum := List.sum_pos _ hwpos hwne
  refine ⟨?_, ?_, ?_, ?_, ?_⟩
  · show (renorm _).length = n
    rw [renorm_length]
    exact hwlen
  · exact renorm_pos _ hwpos hwsum
  · exact renorm_sum _ (ne_of_gt hwsum)
  · show 1 / 10 ≤ (p1.threshold + p2.threshold) / 2
    linarith
  · show (p1.threshold + p2.threshold) / 2 ≤ 9 / 10
    linarith

theorem mutate_ok (n : ℕ) (m : MutRand) (ind : Ind) (hm : MutOK n m)
    (h : ChromOK n ind) : ChromOK n (mutate m ind) := by
  have hn := ChromOK_n_pos h
  obtain ⟨hl, hp, hs, hta, htb⟩ := h
  obtain ⟨hw0, hw1, hidx⟩ := hm
  have hweights : (if m.r1 < 1 / 10 then renorm (ind.weights.set m.idx m.w)
      else ind.weights).length = n ∧
      (∀ x ∈ (if m.r1 < 1 / 10 then renorm (ind.weights.set m.idx m.w)
        else ind.weights), 0 < x) ∧
      (if m.r1 < 1 / 10 then renorm (ind.weights.set m.idx m.w)
        else ind.weights).sum = 1 := by
    by_cases hr : m.r1 < 1 / 10
    · rw [if_pos hr]
      have hsetpos : ∀ x ∈ ind.weights.set m.idx m.w, 0 < x := by
        intro x hx
        rcases List.mem_or_eq_of_mem_set hx with hx' | rfl
        · exact hp x hx'
        · exact hw0
      have hsetne : ind.weights.set m.idx m.w ≠ [] := by
        intro hc
        have := congrArg List.length hc
        simp [hl] at this
        omega
      have hsetsum := List.sum_pos _ hsetpos hsetne
      exact ⟨by rw [renorm_length]; simp [hl],
        renorm_pos _ hsetpos hsetsum, renorm_sum _ (ne_of_gt hsetsum)⟩
    · rw [if_neg hr]
      exact ⟨hl, hp, hs⟩
  have hthresh : 1 / 10 ≤ (if m.r2 < 1 / 10 then
        clip (ind.threshold + m.noise) (1 / 10) (9 / 10) else ind.threshold) ∧
      (if m.r2 < 1 / 10 then clip (ind.threshold + m.noise) (1 / 10) (9 / 10)
        else ind.threshold) ≤ 9 / 10 := by
    by_cases hr : m.r2 < 1 / 10
    · rw [if_pos hr]
      have := clip_bounds (ind.threshold + m.noise) (1 / 10) (9 / 10) (by norm_num)
      exact this
    · rw [if_neg hr]
      exact ⟨hta, htb⟩
  exact ⟨hweights.1, hweights.2.1, hweights.2.2, hthresh.1, hthresh.2⟩

theorem tournament_ok (n : ℕ) (pop : List Ind) (fits : List ℚ) (pr : ℕ × ℕ)
    (hpop : ∀ p ∈ pop, ChromOK n p) (h1 : pr.1 < pop.length) (h2 : pr.2 < pop.length) :
    ChromOK n (tournament pop fits pr) := by
  unfold tournament
  by_cases hc : fits.getD pr.2 0 < fits.getD pr.1 0
  · rw [if_pos hc]
    exact hpop _ (getD_mem_of_lt _ _ _ h1)
  · rw [if_neg hc]
    exact hpop _ (getD_mem_of_lt _ _ _ h2)

theorem foldl_inv {α β : Type} (P : α → Prop) (f : α → β → α) :
    ∀ (l : List β) (a : α), P a → (∀ a' b, b ∈ l → P a' → P (f a' b)) → P (l.foldl f a) := by
  intro l
  induction l with
  | nil => intro a ha _; exact ha
  | cons b rest ih =>
    intro a ha hstep
    simp only [List.foldl_cons]
    exact ih (f a b) (hstep a b (by simp) ha) (fun a' b' hb' => hstep a' b' (by simp [hb']))

theorem argmaxIdx_lt (l : List ℚ) (h : l ≠ []) : argmaxIdx l < l.length := by
  unfold argmaxIdx
  have hlen : 0 < l.length := List.length_pos.mpr h
  have := foldl_inv (fun bi : ℕ × ℚ => bi.1 < l.length)
    (fun bi iv => if bi.2 < iv.2 then iv else bi) l.enum (0, l.getD 0 0) hlen
    (by
      intro a b hb ha
      show (if a.2 < b.2 then b else a).1 < l.length
      by_cases hc : a.2 < b.2
      · rw [if_pos hc]
        obtain ⟨_, hlt, _⟩ := List.mem_enumFrom hb
        simpa using hlt
      · rw [if_neg hc]
        exact ha)
  exact this

theorem breed_length (flip : ℕ → ℕ → Bool) : ∀ (m : ℕ) (l : List Ind), l.length ≤ m →
    ∀ k, l.length ≤ (breed flip k l).length := by
  intro m
  induction m with
  | zero =>
    intro l hl k
    have : l = [] := List.eq_nil_of_length_eq_zero (by omega)
    subst this
    simp [breed]
  | succ m ih =>
    intro l hl k
    cases l with
    | nil => simp [breed]
    | cons p1 rest =>
      cases rest with
      | nil => simp [breed]
      | cons p2 rest2 =>
        have := ih rest2 (by simp at hl; omega) (k + 2)
        simp only [breed, List.length_cons]
        omega

theorem breed_ok (n : ℕ) (flip : ℕ → ℕ → Bool) : ∀ (m : ℕ) (l : List Ind), l.length ≤ m →
    ∀ k, (∀ p ∈ l, ChromOK n p) → ∀ c ∈ breed flip k l, ChromOK n c := by
  intro m
  induction m with
  | zero =>
    intro l hl k hp c hc
    have : l = [] := List.eq_nil_of_length_eq_zero (by omega)
    subst this
    simp [breed] at hc
  | succ m ih =>
    intro l hl k hp c hc
    cases l with
    | nil => simp [breed] at hc
    | cons p1 rest =>
      cases rest with
      | nil =>
        simp only [breed, List.mem_cons] at hc
        rcases hc with rfl | hc
        · exact hp _ (by simp)
        · rcases hc with rfl | hc
          · exact hp _ (by simp)
          · simp at hc
      | cons p2 rest2 =>
        simp only [breed, List.mem_cons] at hc
        rcases hc with rfl | hc
        · exact crossover_ok n (flip k) p1 p2 (hp p1 (by simp)) (hp p2 (by simp))
        · rcases hc with rfl | hc
          · exact crossover_ok n (flip (k + 1)) p2 p1 (hp p2 (by simp)) (hp p1 (by simp))
          · exact ih rest2 (by simp at hl; omega) (k + 2)
              (fun p hp' => hp p (by simp [hp'])) c hc

theorem gaGen_pop (O : Oracle) (X : List Col) (nrows : ℕ) (labels : Option (List Bool))
    (popSize : ℕ) (g : GenRand) (s : Option Ind × Option ℚ × List Ind) :
    (gaGen O X nrows labels popSize g s).2.2 =
      (((breed g.flip 0 ((List.range popSize).map (fun k =>
          tournament s.2.2 (s.2.2.map (fitness O X nrows labels)) (g.sel k)))).enum.map
        (fun kc => mutate (g.mutDraws kc.1) kc.2)).take popSize) := rfl

theorem gaGen_fst (O : Oracle) (X : List Col) (nrows : ℕ) (labels : Option (List Bool))
    (popSize : ℕ) (g : GenRand) (s : Option Ind × Option ℚ × List Ind) :
    (gaGen O X nrows labels popSize g s).1 =
      if gtBest ((s.2.2.map (fitness O X nrows labels)).getD
          (argmaxIdx (s.2.2.map (fitness O X nrows labels))) 0) s.2.1 = true
        then some (s.2.2.getD (argmaxIdx (s.2.2.map (fitness O X nrows labels))) dummyInd)
        else s.1 := by
  have h : (gaGen O X nrows labels popSize g s).1 =
      (if gtBest ((s.2.2.map (fitness O X nrows labels)).getD
          (argmaxIdx (s.2.2.map (fitness O X nrows labels))) 0) s.2.1 = true
        then (some (s.2.2.getD (argmaxIdx (s.2.2.map (fitness O X nrows labels))) dummyInd),
          some ((s.2.2.map (fitness O X nrows labels)).getD
            (argmaxIdx (s.2.2.map (fitness O X nrows labels))) 0))
        else (s.1, s.2.1)).1 := rfl
  rw [h, apply_ite Prod.fst]

theorem gaGen_bestFit (O : Oracle) (X : List Col) (nrows : ℕ) (labels : Option (List Bool))
    (popSize : ℕ) (g : GenRand) (s : Option Ind × Option ℚ × List Ind) :
    (gaGen O X nrows labels popSize g s).2.1 =
      if gtBest ((s.2.2.map (fitness O X nrows labels)).getD
          (argmaxIdx (s.2.2.map (fitness O X nrows labels))) 0) s.2.1 = true
        then some ((s.2.2.map (fitness O X nrows labels)).getD
          (argmaxIdx (s.2.2.map (fitness O X nrows labels))) 0)
        else s.2.1 := by
  have h : (gaGen O X nrows labels popSize g s).2.1 =
      ((if gtBest ((s.2.2.map (fitness O X nrows labels)).getD
          (argmaxIdx (s.2.2.map (fitness O X nrows labels))) 0) s.2.1 = true
        then (some (s.2.2.getD (argmaxIdx (s.2.2.map (fitness O X nrows labels))) dummyInd),
          some ((s.2.2.map (fitness O X nrows labels)).getD
            (argmaxIdx (s.2.2.map (fitness O X nrows labels))) 0))
        else (s.1, s.2.1)).2) := rfl
  rw [h, apply_ite Prod.snd]

theorem gaGen_inv (O : Oracle) (X : List Col) (nrows : ℕ) (labels : Option (List Bool))
    (n popSize : ℕ) (g : GenRand) (hps : 1 ≤ popSize) (hg : GenOK popSize n g)
    (s : Option Ind × Option ℚ × List Ind)
    (hlen : s.2.2.length = popSize) (hpop : ∀ p ∈ s.2.2, ChromOK n p)
    (hbest : ∀ b, s.1 = some b → ChromOK n b) :
    (gaGen O X nrows labels popSize g s).2.2.length = popSize ∧
      (∀ p ∈ (gaGen O X nrows labels popSize g s).2.2, ChromOK n p) ∧
      ∀ b, (gaGen O X nrows labels popSize g s).1 = some b → ChromOK n b := by
  obtain ⟨hsel, hmut⟩ := hg
  have hsurvOK : ∀ p ∈ (List.range popSize).map (fun k =>
      tournament s.2.2 (s.2.2.map (fitness O X nrows labels)) (g.sel k)), ChromOK n p := by
    intro p hp
    rcases List.mem_map.mp hp with ⟨k, _, rfl⟩
    exact tournament_ok n _ _ _ hpop (by rw [hlen]; exact (hsel k).1)
      (by rw [hlen]; exact (hsel k).2)
  have hsurvLen : ((List.range popSize).map (fun k =>
      tournament s.2.2 (s.2.2.map (fitness O X nrows labels)) (g.sel k))).length = popSize := by
    simp
  have hchLen : popSize ≤ (((breed g.flip 0 ((List.range popSize).map (fun k =>
      tournament s.2.2 (s.2.2.map (fitness O X nrows labels)) (g.sel k)))).enum.map
        (fun kc => mutate (g.mutDraws kc.1) kc.2))).length := by
    rw [List.length_map, List.enum_length]
    have hb := breed_length g.flip ((List.range popSize).map (fun k =>
      tournament s.2.2 (s.2.2.map (fitness O X nrows labels)) (g.sel k))).length
      ((List.range popSize).map (fun k =>
        tournament s.2.2 (s.2.2.map (fitness O X nrows labels)) (g.sel k))) le_rfl 0
    omega
  refine ⟨?_, ?_, ?_⟩
  · rw [gaGen_pop, List.length_take]
    omega
  · intro p hp
    rw [gaGen_pop] at hp
    have hp2 := List.mem_of_mem_take hp
    rcases List.mem_map.mp hp2 with ⟨kc, hkc, rfl⟩
    obtain ⟨_, _, hmem⟩ := List.mem_enumFrom hkc
    have hmem2 : kc.2 ∈ breed g.flip 0 ((List.range popSize).map (fun k =>
        tournament s.2.2 (s.2.2.map (fitness O X nrows labels)) (g.sel k))) := by
      rw [hmem]
      apply List.getElem_mem
    exact mutate_ok n _ _ (hmut kc.1) (breed_ok n g.flip _ _ le_rfl 0 hsurvOK kc.2 hmem2)
  · intro b hb
    rw [gaGen_fst] at hb
    by_cases hgt : gtBest ((s.2.2.map (fitness O X nrows labels)).getD
        (argmaxIdx (s.2.2.map (fitness O X nrows labels))) 0) s.2.1 = true
    · rw [if_pos hgt] at hb
      injection hb with hb
      subst hb
      have hne : s.2.2 ≠ [] := by
        intro hc
        rw [hc] at hlen
        simp at hlen
        omega
      have hbi : argmaxIdx (s.2.2.map (fitness O X nrows labels)) < s.2.2.length := by
        have h2 := argmaxIdx_lt (s.2.2.map (fitness O X nrows labels)) (by simpa using hne)
        simpa using h2
      exact hpop _ (getD_mem_of_lt _ _ _ hbi)
    · rw [if_neg hgt] at hb
      exact hbest b hb

theorem gaFit_best_ok (O : Oracle) (st : GAState) (X : List Col) (nrows : ℕ)
    (labels : Option (List Bool)) (init : ℕ → List ℚ × ℚ) (gens : ℕ → GenRand) (n : ℕ)
    (hps : 1 ≤ st.popSize)
    (hbest : ∀ b, st.best = some b → ChromOK n b)
    (hinit : ∀ k, DirOK n (init k))
    (hgens : ∀ gi, GenOK st.popSize n (gens gi)) :
    ∀ b, (gaFit O st X nrows labels init gens).best = some b → ChromOK n b := by
  intro b hb
  have hfin := foldl_inv
    (fun s : Option Ind × Option ℚ × List Ind =>
      s.2.2.length = st.popSize ∧ (∀ p ∈ s.2.2, ChromOK n p) ∧
        ∀ b ,s.1 = some b → ChromOK n b)
    (fun s gIdx => gaGen O X nrows labels st.popSize (gens gIdx) s)
    (List.range st.generations)
    (st.best, st.bestFit, (List.range st.popSize).map (fun k => createInd (init k)))
    ⟨by simp, by
      intro p hp
      rcases List.mem_map.mp hp with ⟨k, _, rfl⟩
      exact createInd_ok n _ (hinit k), hbest⟩
    (fun s gIdx _ hs =>
      gaGen_inv O X nrows labels n st.popSize (gens gIdx) hps (hgens gIdx) s
        hs.1 hs.2.1 hs.2.2)
  exact hfin.2.2 b hb

theorem nanVals_X1 : nanVals [some (5 : ℚ), some 5] = [5, 5] := by simp [nanVals]

theorem meanQ_X1 : meanQ [(5 : ℚ), 5] = 5 := by norm_num [meanQ]

theorem varQ_X1 : varQ [(5 : ℚ), 5] = 0 := by norm_num [varQ, meanQ]

theorem gaNormalize_X1 :
    gaNormalize oracleC [[some 5, some 5]] = [[some 0, some 0]] := by
  simp [gaNormalize, meanF, stdPlainF, nanVals_X1, meanQ_X1, varQ_X1, oracleC,
    fSub, fDiv, fAdd]

theorem gaScores_X1n : gaScores [1] [[some (0 : ℚ), some 0]] 2 = [some 0, some 0] := by
  simp [gaScores, fAdd]

theorem outlierF_zero (t : ℚ) (ht : 0 < t) : outlierF t (some 0) = false := by
  simp [outlierF]
  linarith

theorem fitness_X1 (t : ℚ) (ht : 0 < t) :
    fitness oracleC [[some 5, some 5]] 2 none ⟨[1], t⟩ = -(1 / 20) := by
  show fitnessU oracleC [[some 5, some 5]] 2 ⟨[1], t⟩ = -(1 / 20)
  simp only [fitnessU, gaNormalize_X1, gaScores_X1n]
  simp [List.filter, outlierF_zero t ht]

theorem nanVals_X2 : nanVals [some (0 : ℚ), some 0, some 2, some 2] = [0, 0, 2, 2] := by
  simp [nanVals]

theorem meanQ_X2 : meanQ [(0 : ℚ), 0, 2, 2] = 1 := by norm_num [meanQ]

theorem varQ_X2 : varQ [(0 : ℚ), 0, 2, 2] = 1 := by norm_num [varQ, meanQ]

theorem gaNormalize_X2 :
    gaNormalize oracleC [[some 0, some 0, some 2, some 2]] =
      [[some (-(100000000 / 100000001)), some (-(100000000 / 100000001)),
        some (100000000 / 100000001), some (100000000 / 100000001)]] := by
  simp [gaNormalize, meanF, stdPlainF, nanVals_X2, meanQ_X2, varQ_X2, oracleC,
    fSub, fDiv, fAdd]
  norm_num [eps]

theorem gaScores_X2n :
    gaScores [1] [[some (-(100000000 / 100000001) : ℚ), some (-(100000000 / 100000001)),
      some (100000000 / 100000001), some (100000000 / 100000001)]] 4 =
      [some (-(100000000 / 100000001)), some (-(100000000 / 100000001)),
        some (100000000 / 100000001), some (100000000 / 100000001)] := by
  simp [gaScores, fAdd]

theorem outlierF_X2neg (t : ℚ) (ht : t ≤ 9 / 10) :
    outlierF t (some (-(100000000 / 100000001))) = true := by
  simp only [outlierF, decide_eq_true_eq]
  have habs : |(-(100000000 / 100000001) : ℚ)| = 100000000 / 100000001 := by
    rw [abs_neg, abs_of_pos]
    norm_num
  rw [habs]
  have h2 : (9 : ℚ) / 10 < 100000000 / 100000001 := by norm_num
  linarith

theorem outlierF_X2pos (t : ℚ) (ht : t ≤ 9 / 10) :
    outlierF t (some (100000000 / 100000001)) = true := by
  simp only [outlierF, decide_eq_true_eq]
  rw [abs_of_pos (by norm_num)]
  have h2 : (9 : ℚ) / 10 < 100000000 / 100000001 := by norm_num
  linarith

theorem fitness_X2 (t : ℚ) (ht : t ≤ 9 / 10) :
    fitness oracleC [[some 0, some 0, some 2, some 2]] 4 none ⟨[1], t⟩ = -(19 / 20) := by
  show fitnessU oracleC [[some 0, some 0, some 2, some 2]] 4 ⟨[1], t⟩ = -(19 / 20)
  simp only [fitnessU, gaNormalize_X2, gaScores_X2n]
  simp [List.filter, outlierF_X2neg t ht, outlierF_X2pos t ht]
  norm_num

theorem argmaxIdx_pair_same (x : ℚ) : argmaxIdx [x, x] = 0 := by
  simp [argmaxIdx, List.enum, List.enumFrom, List.foldl, List.getD, lt_self_iff_false]

theorem gtBest_X2 : gtBest (-(19 / 20)) (some (-(1 / 20))) = false := by
  simp [gtBest]
  norm_num

theorem fit1_best :
    (gaFit oracleC (mkGA 2 1) [[some 5, some 5]] 2 none
        (fun k => ([1], if k = 0 then 2 / 5 else 3 / 5))
        (fun _ => ⟨fun _ => (0, 1), fun _ _ => true, fun _ => ⟨1, 0, 1 / 2, 1, 0⟩⟩)).best =
      some ⟨[1], 2 / 5⟩ ∧
    (gaFit oracleC (mkGA 2 1) [[some 5, some 5]] 2 none
        (fun k => ([1], if k = 0 then 2 / 5 else 3 / 5))
        (fun _ => ⟨fun _ => (0, 1), fun _ _ => true, fun _ => ⟨1, 0, 1 / 2, 1, 0⟩⟩)).bestFit =
      some (-(1 / 20)) := by
  have hfits : [(⟨[1], 2 / 5⟩ : Ind), ⟨[1], 3 / 5⟩].map
      (fitness oracleC [[some 5, some 5]] 2 none) = [-(1 / 20), -(1 / 20)] := by
    rw [List.map_cons, List.map_cons, List.map_nil,
      fitness_X1 (2 / 5) (by norm_num), fitness_X1 (3 / 5) (by norm_num)]
  constructor
  · have h : (gaFit oracleC (mkGA 2 1) [[some 5, some 5]] 2 none
        (fun k => ([1], if k = 0 then 2 / 5 else 3 / 5))
        (fun _ => ⟨fun _ => (0, 1), fun _ _ => true, fun _ => ⟨1, 0, 1 / 2, 1, 0⟩⟩)).best =
          (gaGen oracleC [[some 5, some 5]] 2 none 2
            ⟨fun _ => (0, 1), fun _ _ => true, fun _ => ⟨1, 0, 1 / 2, 1, 0⟩⟩
            (none, none, [⟨[1], 2 / 5⟩, ⟨[1], 3 / 5⟩])).1 := rfl
    rw [h, gaGen_fst]
    simp [hfits, argmaxIdx_pair_same, gtBest]
  · have h : (gaFit oracleC (mkGA 2 1) [[some 5, some 5]] 2 none
        (fun k => ([1], if k = 0 then 2 / 5 else 3 / 5))
        (fun _ => ⟨fun _ => (0, 1), fun _ _ => true, fun _ => ⟨1, 0, 1 / 2, 1, 0⟩⟩)).bestFit =
          (gaGen oracleC [[some 5, some 5]] 2 none 2
            ⟨fun _ => (0, 1), fun _ _ => true, fun _ => ⟨1, 0, 1 / 2, 1, 0⟩⟩
            (none, none, [⟨[1], 2 / 5⟩, ⟨[1], 3 / 5⟩])).2.1 := rfl
    rw [h, gaGen_bestFit]
    simp [hfits, argmaxIdx_pair_same, gtBest]

theorem fit2_bests :
    (gaFit oracleC
        (gaFit oracleC (mkGA 2 1) [[some 5, some 5]] 2 none
          (fun k => ([1], if k = 0 then 2 / 5 else 3 / 5))
          (fun _ => ⟨fun _ => (0, 1), fun _ _ => true, fun _ => ⟨1, 0, 1 / 2, 1, 0⟩⟩))
        [[some 0, some 0, some 2, some 2]] 4 none
        (fun k => ([1], if k = 0 then 1 / 2 else 13 / 20))
        (fun _ => ⟨fun _ => (0, 1), fun _ _ => true, fun _ => ⟨1, 0, 1 / 2, 1, 0⟩⟩)).best =
      some ⟨[1], 2 / 5⟩ ∧
    (gaFit oracleC (mkGA 2 1) [[some 0, some 0, some 2, some 2]] 4 none
        (fun k => ([1], if k = 0 then 1 / 2 else 13 / 20))
        (fun _ => ⟨fun _ => (0, 1), fun _ _ => true, fun _ => ⟨1, 0, 1 / 2, 1, 0⟩⟩)).best =
      some ⟨[1], 1 / 2⟩ := by
  have hfits : [(⟨[1], 1 / 2⟩ : Ind), ⟨[1], 13 / 20⟩].map
      (fitness oracleC [[some 0, some 0, some 2, some 2]] 4 none) =
        [-(19 / 20), -(19 / 20)] := by
    rw [List.map_cons, List.map_cons, List.map_nil,
      fitness_X2 (1 / 2) (by norm_num), fitness_X2 (13 / 20) (by norm_num)]
  constructor
  · have h : (gaFit oracleC
        (gaFit oracleC (mkGA 2 1) [[some 5, some 5]] 2 none
          (fun k => ([1], if k = 0 then 2 / 5 else 3 / 5))
          (fun _ => ⟨fun _ => (0, 1), fun _ _ => true, fun _ => ⟨1, 0, 1 / 2, 1, 0⟩⟩))
        [[some 0, some 0, some 2, some 2]] 4 none
        (fun k => ([1], if k = 0 then 1 / 2 else 13 / 20))
        (fun _ => ⟨fun _ => (0, 1), fun _ _ => true, fun _ => ⟨1, 0, 1 / 2, 1, 0⟩⟩)).best =
          (gaGen oracleC [[some 0, some 0, some 2, some 2]] 4 none 2
            ⟨fun _ => (0, 1), fun _ _ => true, fun _ => ⟨1, 0, 1 / 2, 1, 0⟩⟩
            ((gaFit oracleC (mkGA 2 1) [[some 5, some 5]] 2 none
                (fun k => ([1], if k = 0 then 2 / 5 else 3 / 5))
                (fun _ => ⟨fun _ => (0, 1), fun _ _ => true,
                  fun _ => ⟨1, 0, 1 / 2, 1, 0⟩⟩)).best,
              (gaFit oracleC (mkGA 2 1) [[some 5, some 5]] 2 none
                (fun k => ([1], if k = 0 then 2 / 5 else 3 / 5))
                (fun _ => ⟨fun _ => (0, 1), fun _ _ => true,
                  fun _ => ⟨1, 0, 1 / 2, 1, 0⟩⟩)).bestFit,
              [⟨[1], 1 / 2⟩, ⟨[1], 13 / 20⟩])).1 := rfl
    rw [h, gaGen_fst]
    simp only [hfits, fit1_best.2, argmaxIdx_pair_same, List.getD_cons_zero]
    rw [if_neg (by rw [gtBest_X2]; decide)]
    exact fit1_best.1
  · have h : (gaFit oracleC (mkGA 2 1) [[some 0, some 0, some 2, some 2]] 4 none
        (fun k => ([1], if k = 0 then 1 / 2 else 13 / 20))
        (fun _ => ⟨fun _ => (0, 1), fun _ _ => true, fun _ => ⟨1, 0, 1 / 2, 1, 0⟩⟩)).best =
          (gaGen oracleC [[some 0, some 0, some 2, some 2]] 4 none 2
            ⟨fun _ => (0, 1), fun _ _ => true, fun _ => ⟨1, 0, 1 / 2, 1, 0⟩⟩
            (none, none, [⟨[1], 1 / 2⟩, ⟨[1], 13 / 20⟩])).1 := rfl
    rw [h, gaGen_fst]
    simp only [hfits, argmaxIdx_pair_same, List.getD_cons_zero, gtBest]
    simp

/-- C9: Refitting is NOT a full state replacement for the evolutionary scorer:
`fit` never resets `best_individual`/`best_fitness`, so a second `fit` on new
data can retain the first fit's best individual.  Concretely, fitting on a
two-row constant matrix and then refitting on a four-row matrix yields a
different best individual than fitting the four-row matrix directly from a
fresh detector, under identical random draws. -/
theorem c9_refit_keeps_prior_best :
    (gaFit oracleC
        (gaFit oracleC (mkGA 2 1) [[some 5, some 5]] 2 none
          (fun k => ([1], if k = 0 then 2 / 5 else 3 / 5))
          (fun _ => ⟨fun _ => (0, 1), fun _ _ => true, fun _ => ⟨1, 0, 1 / 2, 1, 0⟩⟩))
        [[some 0, some 0, some 2, some 2]] 4 none
        (fun k => ([1], if k = 0 then 1 / 2 else 13 / 20))
        (fun _ => ⟨fun _ => (0, 1), fun _ _ => true, fun _ => ⟨1, 0, 1 / 2, 1, 0⟩⟩)).best ≠
      (gaFit oracleC (mkGA 2 1) [[some 0, some 0, some 2, some 2]] 4 none
        (fun k => ([1], if k = 0 then 1 / 2 else 13 / 20))
        (fun _ => ⟨fun _ => (0, 1), fun _ _ => true, fun _ => ⟨1, 0, 1 / 2, 1, 0⟩⟩)).best := by
  rw [fit2_bests.1, fit2_bests.2]
  intro h
  injection h with h
  injection h with h1 h2
  norm_num at h2

/-- C9 (amended): what `fit` actually guarantees across refits is monotonicity:
`best_fitness` is never reset, so after any further `fit` call it is still
defined and at least as large as before. -/
theorem c9_best_fitness_monotone (O : Oracle) (st : GAState) (X : List Col) (nrows : ℕ)
    (labels : Option (List Bool)) (init : ℕ → List ℚ × ℚ) (gens : ℕ → GenRand)
    (b : ℚ) (hb : st.bestFit = some b) :
    ∃ b2, (gaFit O st X nrows labels init gens).bestFit = some b2 ∧ b ≤ b2 := by
  have key := foldl_inv
    (fun s : Option Ind × Option ℚ × List Ind => ∃ b2, s.2.1 = some b2 ∧ b ≤ b2)
    (fun s gIdx => gaGen O X nrows labels st.popSize (gens gIdx) s)
    (List.range st.generations)
    (st.best, st.bestFit, (List.range st.popSize).map (fun k => createInd (init k)))
    ⟨b, hb, le_refl b⟩
    (fun s gIdx _ hs => by
      obtain ⟨b2, hb2, hle⟩ := hs
      rw [gaGen_bestFit]
      by_cases hgt : gtBest ((s.2.2.map (fitness O X nrows labels)).getD
          (argmaxIdx (s.2.2.map (fitness O X nrows labels))) 0) s.2.1 = true
      · refine ⟨(s.2.2.map (fitness O X nrows labels)).getD
            (argmaxIdx (s.2.2.map (fitness O X nrows labels))) 0, by rw [if_pos hgt], ?_⟩
        rw [hb2] at hgt
        simp only [gtBest, decide_eq_true_eq] at hgt
        linarith
      · rw [if_neg hgt]
        exact ⟨b2, hb2, hle⟩)
  exact key

theorem c9_best_fitness_monotone_w :
    (⟨1, 0, none, some 0⟩ : GAState).bestFit = some 0 ∧
    ∃ b2, (gaFit oracleC ⟨1, 0, none, some 0⟩ [] 0 none (fun _ => ([1], 1 / 2))
      (fun _ => ⟨fun _ => (0, 0), fun _ _ => true, fun _ => ⟨1, 0, 1 / 2, 1, 0⟩⟩)).bestFit =
        some b2 ∧ (0 : ℚ) ≤ b2 :=
  ⟨rfl, c9_best_fitness_monotone oracleC ⟨1, 0, none, some 0⟩ [] 0 none
    (fun _ => ([1], 1 / 2))
    (fun _ => ⟨fun _ => (0, 0), fun _ _ => true, fun _ => ⟨1, 0, 1 / 2, 1, 0⟩⟩) 0 rfl⟩

theorem gaGenR_store (O : Oracle) (X : List Col) (nrows : ℕ) (labels : Option (List Bool))
    (popSize : ℕ) (g : GenRand) (s : WStore × Option IndR × Option ℚ × List IndR) :
    (gaGenR O X nrows labels popSize g s).1 =
      (breedMutR g.flip g.mutDraws 0 s.1 ((List.range popSize).map
        (fun k => tournamentR s.2.2.2 (s.2.2.2.map (fitnessR O X nrows labels s.1))
          (g.sel k)))).1 := rfl

theorem gaGenR_best (O : Oracle) (X : List Col) (nrows : ℕ) (labels : Option (List Bool))
    (popSize : ℕ) (g : GenRand) (s : WStore × Option IndR × Option ℚ × List IndR) :
    (gaGenR O X nrows labels popSize g s).2.1 =
      if gtBest ((s.2.2.2.map (fitnessR O X nrows labels s.1)).getD
          (argmaxIdx (s.2.2.2.map (fitnessR O X nrows labels s.1))) 0) s.2.2.1 = true
        then some (s.2.2.2.getD (argmaxIdx (s.2.2.2.map (fitnessR O X nrows labels s.1)))
          dummyIndR)
        else s.2.1 := by
  have h : (gaGenR O X nrows labels popSize g s).2.1 =
      (if gtBest ((s.2.2.2.map (fitnessR O X nrows labels s.1)).getD
          (argmaxIdx (s.2.2.2.map (fitnessR O X nrows labels s.1))) 0) s.2.2.1 = true
        then (some (s.2.2.2.getD (argmaxIdx (s.2.2.2.map (fitnessR O X nrows labels s.1)))
            dummyIndR),
          some ((s.2.2.2.map (fitnessR O X nrows labels s.1)).getD
            (argmaxIdx (s.2.2.2.map (fitnessR O X nrows labels s.1))) 0))
        else (s.2.1, s.2.2.1)).1 := rfl
  rw [h, apply_ite Prod.fst]

theorem argmaxIdx_triple_same (x : ℚ) : argmaxIdx [x, x, x] = 0 := by
  simp [argmaxIdx, List.enum, List.enumFrom, List.foldl, List.getD, lt_self_iff_false]

theorem run5_state : run5 = gaGenR oracleC X5 2 none 3 g5
    ([[1 / 2, 1 / 2], [1 / 2, 1 / 2], [1 / 2, 1 / 2]], none, none,
      [⟨0, 1 / 2⟩, ⟨1, 1 / 2⟩, ⟨2, 1 / 2⟩]) := rfl

theorem fits5_eval :
    [(⟨0, 1 / 2⟩ : IndR), ⟨1, 1 / 2⟩, ⟨2, 1 / 2⟩].map
      (fitnessR oracleC X5 2 none [[1 / 2, 1 / 2], [1 / 2, 1 / 2], [1 / 2, 1 / 2]]) =
    [fitness oracleC X5 2 none ⟨[1 / 2, 1 / 2], 1 / 2⟩,
      fitness oracleC X5 2 none ⟨[1 / 2, 1 / 2], 1 / 2⟩,
      fitness oracleC X5 2 none ⟨[1 / 2, 1 / 2], 1 / 2⟩] := rfl

theorem surv5_eval :
    (List.range 3).map (fun k => tournamentR [(⟨0, 1 / 2⟩ : IndR), ⟨1, 1 / 2⟩, ⟨2, 1 / 2⟩]
      [fitness oracleC X5 2 none ⟨[1 / 2, 1 / 2], 1 / 2⟩,
        fitness oracleC X5 2 none ⟨[1 / 2, 1 / 2], 1 / 2⟩,
        fitness oracleC X5 2 none ⟨[1 / 2, 1 / 2], 1 / 2⟩] (g5.sel k)) =
    [⟨1, 1 / 2⟩, ⟨1, 1 / 2⟩, ⟨0, 1 / 2⟩] := by
  simp [List.range_succ, tournamentR, g5, List.getD, lt_self_iff_false]

theorem store5_eval :
    ((breedMutR g5.flip g5.mutDraws 0 [[1 / 2, 1 / 2], [1 / 2, 1 / 2], [1 / 2, 1 / 2]]
      [(⟨1, 1 / 2⟩ : IndR), ⟨1, 1 / 2⟩, ⟨0, 1 / 2⟩]).1).getD 0 [] = [3 / 4, 1 / 2] := by
  simp [breedMutR, mutateR, crossoverR, allocW, readW, g5, List.getD,
    (show (0 : ℚ) < 1 / 10 by norm_num), (show ¬((1 : ℚ) < 1 / 10) by norm_num),
    (show (0 : ℚ) < 10⁻¹ by norm_num), (show ¬((1 : ℚ) < 10⁻¹) by norm_num)]

theorem run5_best : run5.2.1 = some ⟨0, 1 / 2⟩ := by
  rw [run5_state, gaGenR_best]
  simp only [fits5_eval, argmaxIdx_triple_same, List.getD_cons_zero, gtBest]
  simp

theorem run5_best_weights : readW run5.1 ⟨0, 1 / 2⟩ = [3 / 4, 1 / 2] := by
  have h : run5.1 = (breedMutR g5.flip g5.mutDraws 0
      [[1 / 2, 1 / 2], [1 / 2, 1 / 2], [1 / 2, 1 / 2]]
      ((List.range 3).map (fun k => tournamentR [(⟨0, 1 / 2⟩ : IndR), ⟨1, 1 / 2⟩, ⟨2, 1 / 2⟩]
        ([(⟨0, 1 / 2⟩ : IndR), ⟨1, 1 / 2⟩, ⟨2, 1 / 2⟩].map
          (fitnessR oracleC X5 2 none [[1 / 2, 1 / 2], [1 / 2, 1 / 2], [1 / 2, 1 / 2]]))
        (g5.sel k)))).1 := by
    rw [run5_state, gaGenR_store]
  rw [h, fits5_eval, surv5_eval]
  exact store5_eval

/-- C5: the invariant FAILS on the program, because `dict.copy()` is shallow
and `_mutate` writes into the shared weights ndarray in place (line 324)
before renormalising: in the concrete run `run5` — odd population size, one
generation — the retained best individual is the first chromosome, its weights
array read back through the heap after `fit` is `[3/4, 1/2]`, and that
chromosome violates the claimed invariant: its weight sum 5/4 misses 1 by 1/4,
far beyond the 1e-6 tolerance.  The defensive `.copy()` calls and the
renormalise-after-mutate pattern show the invariant is the intent; the missing
deep copy is the slip. -/
theorem c5_mutation_corrupts_tracked_best :
    run5.2.1 = some ⟨0, 1 / 2⟩ ∧
    readW run5.1 ⟨0, 1 / 2⟩ = [3 / 4, 1 / 2] ∧
    ¬ ChromSpecOK ⟨[3 / 4, 1 / 2], 1 / 2⟩ := by
  refine ⟨run5_best, run5_best_weights, ?_⟩
  intro h
  obtain ⟨h1, -⟩ := h
  have hs : ([3 / 4, 1 / 2] : List ℚ).sum = 5 / 4 := by
    norm_num [List.sum_cons, List.sum_nil]
  rw [hs] at h1
  rw [show (5 / 4 - 1 : ℚ) = 1 / 4 by norm_num] at h1
  rw [abs_of_nonneg (by norm_num : (0 : ℚ) ≤ 1 / 4)] at h1
  norm_num at h1
